import Mathlib

/-!
Verification of the trialscout publication-discovery and batch-runner core.

Shallow embedding of the JavaScript sources:
  * `src/tool/src/utils/utils.js` (shipped as `src/unnamed/part_002`):
    `removeDuplicatePublications`, `maxDateFilter`, `minDateFilter`;
  * `src/tool/src/discovery/publication/index.js` (`src/unnamed/part_005`):
    `discoverPublications` and the strategy wrapper;
  * `src/tool/src/discovery/publication/strategies/linked-at-registration.js`:
    `searchLinkedAtRegistration`;
  * `src/tool/src/runner/batch/stages/result-gen-preparation.js`: chunk packing;
  * `src/tool/src/runner/batch/stages/result-gen-process.js` (second half of the
    shipped file): `stageResultGenUpload`;
  * `src/tool/src/runner/batch/stages/query-gen-poll.js` (second half of the
    shipped file): the per-trial summary computation of `stageFinalize`;
  * `src/tool/src/runner/batch/utils/progress.js` (`src/unnamed/part_000`):
    `loadProgress`.

JavaScript platform behaviour that the functions rely on is modelled once and
shared: string comparison (`jsStrLt`), `Array.prototype.sort` with a comparator
(`jsSort`, stable, as required by ES2019), `new Set(...)` insertion-order
deduplication (`jsSetDedup`), truthiness of optional string fields
(`jsTruthyOptStr`), and `new Date(...)` parsing of date-only ISO strings
(`jsDateParse`, encoded ordinally).  External IO (OpenAI, PubMed, the file
system) is abstracted: its observable outcomes are arguments of the embedded
functions.
-/

/-- JS `<` on strings: lexicographic comparison of the character sequences
(code-unit order; all strings compared in this code base are ASCII). -/
def jsStrLtChars : List Char → List Char → Bool
  | [], [] => false
  | [], _ :: _ => true
  | _ :: _, [] => false
  | a :: as, b :: bs => if a < b then true else if b < a then false else jsStrLtChars as bs

/-- JS `a < b` for strings. -/
def jsStrLt (a b : String) : Bool := jsStrLtChars a.data b.data

/-- JS `a <= b` for strings, i.e. `!(b < a)`. -/
def jsStrLe (a b : String) : Bool := ! jsStrLt b a

/-- Stable insertion of `a` into `l`: `a` goes in front of the first element
`b` with `le a b`. -/
def jsSortInsert (le : α → α → Bool) (a : α) : List α → List α
  | [] => [a]
  | b :: l => if le a b then a :: b :: l else b :: jsSortInsert le a l

/-- Stable sort by `le`; models `Array.prototype.sort` with a comparator that
is consistent with the total preorder `le` (ES2019 sort is stable, and a stable
sort's output is uniquely determined, so any correct implementation agrees). -/
def jsSort (le : α → α → Bool) : List α → List α
  | [] => []
  | a :: l => jsSortInsert le a (jsSort le l)

/-- `[...new Set(l)]`: deduplication keeping the first occurrence of each
element, in insertion order. -/
def jsSetDedupGo [DecidableEq α] (seen : List α) : List α → List α
  | [] => []
  | x :: xs => if x ∈ seen then jsSetDedupGo seen xs else x :: jsSetDedupGo (x :: seen) xs

/-- `[...new Set(l)]`. -/
def jsSetDedup [DecidableEq α] (l : List α) : List α := jsSetDedupGo [] l

/-- Truthiness of a JS field holding a string: `undefined`/`null` are modelled
as `none`, and the empty string is falsy as well. -/
def jsTruthyOptStr : Option String → Bool
  | none => false
  | some s => ! (s = "")

/-- `o || d` for a string-valued JS expression `o` with default `d`. -/
def jsOrElseStr (o : Option String) (d : String) : String :=
  match o with
  | none => d
  | some s => if s = "" then d else s

/-- Numeric value of a decimal digit character. -/
def digitVal (c : Char) : Nat := c.toNat - 48

/-- `new Date(s).getTime()` for the date-only ISO strings this code base
feeds to it (`YYYY`, `YYYY-MM`, `YYYY-MM-DD`); any other shape is an
`Invalid Date` (`none`).  Timestamps are modelled ordinally as
`y * 10000 + m * 100 + d`, which orders exactly like the real epoch
milliseconds on valid dates. -/
def jsDateParse (s : String) : Option Int :=
  let mk : Nat → Nat → Nat → Option Int := fun y m d =>
    some ((y * 10000 + m * 100 + d : Nat) : Int)
  let dig : Char → Bool := fun c => c.isDigit
  match s.data with
  | [y1, y2, y3, y4] =>
    if dig y1 && dig y2 && dig y3 && dig y4 then
      mk (((digitVal y1 * 10 + digitVal y2) * 10 + digitVal y3) * 10 + digitVal y4) 1 1
    else none
  | [y1, y2, y3, y4, '-', m1, m2] =>
    if dig y1 && dig y2 && dig y3 && dig y4 && dig m1 && dig m2 then
      let y := (((digitVal y1 * 10 + digitVal y2) * 10 + digitVal y3) * 10 + digitVal y4)
      let m := digitVal m1 * 10 + digitVal m2
      if 1 ≤ m ∧ m ≤ 12 then mk y m 1 else none
    else none
  | [y1, y2, y3, y4, '-', m1, m2, '-', d1, d2] =>
    if dig y1 && dig y2 && dig y3 && dig y4 && dig m1 && dig m2 && dig d1 && dig d2 then
      let y := (((digitVal y1 * 10 + digitVal y2) * 10 + digitVal y3) * 10 + digitVal y4)
      let m := digitVal m1 * 10 + digitVal m2
      let d := digitVal d1 * 10 + digitVal d2
      if (1 ≤ m ∧ m ≤ 12) ∧ (1 ≤ d ∧ d ≤ 31) then mk y m d else none
    else none
  | _ => none

/-! Section: Deduplication (`removeDuplicatePublications`, utils.js lines 189-206) -/

/-- A publication as seen by `removeDuplicatePublications`: the `pmid` and
`sources` fields are inspected, everything else (`rest`) is carried along
untouched (the JS code `_.cloneDeep`s the first occurrence).  A missing or
empty `pmid` is modelled as `""` (both are falsy in JS). -/
structure DPub (α : Type) where
  pmid : String
  sources : List String
  rest : α
deriving DecidableEq, Repr

/-- The accumulator step of the `reduce` in `removeDuplicatePublications`:
`acc` is the object `uniquePubSet`, modelled as an association list in key
insertion order.  (JS orders integer-like keys of an object numerically, so
`Object.values` may permute this list; every property proved below is
permutation-invariant.)  On a duplicate `pmid` the existing entry's `sources`
become `[...new Set([...cur.sources, ...prev.sources])]`; a falsy `pmid`
throws. -/
def removeDuplicatePublicationsGo (acc : List (DPub α)) :
    List (DPub α) → Except String (List (DPub α))
  | [] => .ok acc
  | cur :: rest =>
    if cur.pmid = "" then
      .error "No pmid found in publication"
    else if acc.any (fun e => e.pmid = cur.pmid) then
      removeDuplicatePublicationsGo
        (acc.map fun e =>
          if e.pmid = cur.pmid then
            { e with sources := jsSetDedup (cur.sources ++ e.sources) }
          else e)
        rest
    else
      removeDuplicatePublicationsGo (acc ++ [cur]) rest

/-- `removeDuplicatePublications` (utils.js 189-206). -/
def removeDuplicatePublications (publications : List (DPub α)) :
    Except String (List (DPub α)) :=
  removeDuplicatePublicationsGo [] publications

/-! Section: Date filters (`maxDateFilter` / `minDateFilter`, utils.js 263-366) -/

/-- A publication as seen by the date filters: only `publicationDate` is
inspected; `rest` carries the remaining fields.  `none` models a missing
(`undefined`/`null`) date; `some ""` is the empty string (also falsy).
A `null` list entry (`!publication`) is treated by the JS loop exactly like
an entry with a falsy date, so it is not modelled separately. -/
structure FPub (α : Type) where
  publicationDate : Option String
  rest : α
deriving DecidableEq, Repr

/-- The loop of `maxDateFilter`: publications without a (truthy) date go to
`eligible`; dates that fail to parse are silently skipped (they land in
neither list); otherwise `pubDate < cutoffDate` selects `eligible`. -/
def maxDateFilterGo (parse : String → Option Int) (cutoff : Int) :
    List (FPub α) → List (FPub α) × List (FPub α)
  | [] => ([], [])
  | p :: ps =>
    let ef := maxDateFilterGo parse cutoff ps
    match p.publicationDate with
    | none => (p :: ef.1, ef.2)
    | some s =>
      if s = "" then (p :: ef.1, ef.2)
      else
        match parse s with
        | none => (ef.1, ef.2)
        | some pd => if pd < cutoff then (p :: ef.1, ef.2) else (ef.1, p :: ef.2)

/-- `maxDateFilter` (utils.js 263-310).  `parse` stands for `new Date`;
the cutoff is validated first (`!maxDate` throws, then `isNaN` throws). -/
def maxDateFilter (parse : String → Option Int) (publications : List (FPub α))
    (maxDate : String) : Except String (List (FPub α) × List (FPub α)) :=
  if maxDate = "" then .error "Max date is required"
  else
    match parse maxDate with
    | none => .error "Invalid trial date format"
    | some cutoff => .ok (maxDateFilterGo parse cutoff publications)

/-- The loop of `minDateFilter`: identical to `maxDateFilterGo` except that
`pubDate >= cutoffDate` selects `eligible`.  Unparseable dates are skipped
here as well. -/
def minDateFilterGo (parse : String → Option Int) (cutoff : Int) :
    List (FPub α) → List (FPub α) × List (FPub α)
  | [] => ([], [])
  | p :: ps =>
    let ef := minDateFilterGo parse cutoff ps
    match p.publicationDate with
    | none => (p :: ef.1, ef.2)
    | some s =>
      if s = "" then (p :: ef.1, ef.2)
      else
        match parse s with
        | none => (ef.1, ef.2)
        | some pd => if cutoff ≤ pd then (p :: ef.1, ef.2) else (ef.1, p :: ef.2)

/-- `minDateFilter` (utils.js 319-366). -/
def minDateFilter (parse : String → Option Int) (publications : List (FPub α))
    (minDate : String) : Except String (List (FPub α) × List (FPub α)) :=
  if minDate = "" then .error "Min date is required"
  else
    match parse minDate with
    | none => .error "Invalid trial date format"
    | some cutoff => .ok (minDateFilterGo parse cutoff publications)

/-! Section: Discovery engine (`discoverPublications`, publication/index.js 77-122) -/

/-- A candidate publication produced by a discovery strategy.  The wrapper in
`discoverPublications` overwrites `sources` with `[strategyName]` via the
spread `{...pub, sources: [strategyName]}`. -/
structure Candidate where
  pmid : String
  publicationDate : Option String
  sources : List String
deriving DecidableEq, Repr

/-- A strategy implementation as stored in `SEARCH_FUNCTIONS`: its JS
function name (`fn.name`) and its behaviour on a registration, which either
throws (`Except.error message`) or returns `{results, error?}`.  `ρ` is the
registration type. -/
structure SearchFn (ρ : Type) where
  name : String
  run : ρ → Except String (List Candidate × Option String)

/-- One element of `searchResults` in `discoverPublications`: the record a
wrapped strategy resolves to, `{results, fn, error}`. -/
structure SearchResultRec where
  results : List Candidate
  fn : String
  error : Option String
deriving DecidableEq, Repr

/-- The wrapper that `discoverPublications` puts around a strategy `f`
registered under `strategyName`: tag every result with `sources =
[strategyName]`; on a throw return `{results: [], fn: fn.name, error:
error.message}`.  Note `fn` is the JS function name, not `strategyName`. -/
def wrapStrategy (f : SearchFn ρ) (strategyName : String) (registration : ρ) :
    SearchResultRec :=
  match f.run registration with
  | .error msg => { results := [], fn := f.name, error := some msg }
  | .ok (results, err) =>
    { results := results.map fun p => { p with sources := [strategyName] }
      fn := f.name
      error := err }

/-- `discoverPublications` (publication/index.js 77-122).  `searchFunctions`
models the `SEARCH_FUNCTIONS` registry (strategy id → implementation); an id
missing from it throws `Unknown strategy` before anything runs.  The
`Promise.all` of independent wrappers is modelled by the order-preserving
map.  `errors` keeps every search record whose `error` field is truthy. -/
def discoverPublications (searchFunctions : String → Option (SearchFn ρ))
    (registration : ρ) (strategies : List String) :
    Except String (List Candidate × List SearchResultRec) := do
  let fns ← strategies.mapM fun strategyName =>
    match searchFunctions strategyName with
    | none => Except.error ("Unknown strategy: " ++ strategyName)
    | some f => Except.ok (f, strategyName)
  let searchResults := fns.map fun fs => wrapStrategy fs.1 fs.2 registration
  let discoveredPublications := (searchResults.map (fun s => s.results)).flatten
  let errors := searchResults.filter fun s => jsTruthyOptStr s.error
  return (discoveredPublications, errors)

/-- The registration fields read by `searchLinkedAtRegistration`
(linked-at-registration.js): `linkedPubmedIds` and the optional `pmid` of
each entry of `references`.  The whole registration may be `null`, hence the
strategy is applied to an `Option`. -/
structure RegistrationLAR where
  trialId : String
  linkedPubmedIds : List String
  references : List (Option String)
deriving DecidableEq, Repr

/-- `searchLinkedAtRegistration` (linked-at-registration.js): throws on a
falsy registration; otherwise prefers `linkedPubmedIds`, falling back to the
`references` entries that carry a truthy `pmid`. -/
def searchLinkedAtRegistration (registration : Option RegistrationLAR) :
    Except String (List Candidate × Option String) :=
  match registration with
  | none => .error "searchLinkedAtRegistration failed, null registration"
  | some r =>
    if r.linkedPubmedIds.length > 0 then
      .ok (r.linkedPubmedIds.map fun p =>
        { pmid := p, publicationDate := none, sources := [] }, none)
    else if r.references.length > 0 then
      .ok (r.references.filterMap (fun ref =>
        match ref with
        | none => none
        | some p => if p = "" then none
            else some { pmid := p, publicationDate := none, sources := ([] : List String) }), none)
    else
      .ok ([], none)

/-- Modelled from the spec: the `PUB_SOURCE` constants of
`strategies/constants.js` are not shipped; per the spec's strategy table and
the repository docs the stable identifiers are the snake_case strings such as
`linked_at_registration`.  This registry carries the one strategy whose
implementation is shipped, under its spec identifier, with its JS function
name `searchLinkedAtRegistration`. -/
def searchFunctionsFixture : String → Option (SearchFn (Option RegistrationLAR)) :=
  fun s =>
    if s = "linked_at_registration" then
      some { name := "searchLinkedAtRegistration", run := searchLinkedAtRegistration }
    else none

/-- The record `discoverPublications` captures when the shipped
`linked_at_registration` strategy throws on a null registration. -/
def larErrorRecord : SearchResultRec :=
  { results := []
    fn := "searchLinkedAtRegistration"
    error := some "searchLinkedAtRegistration failed, null registration" }

/-- A registration with two linked PMIDs and no references. -/
def larRegistrationFixture : RegistrationLAR :=
  { trialId := "2004-000123-42"
    linkedPubmedIds := ["555", "666"]
    references := [] }

/-! Section: Per-trial finalization (`stageFinalize`, query-gen-poll.js shipped file,
second half, lines 103-298) -/

/-- A publication of `progress.publications[trialId].publications` as read by
`stageFinalize` and `stageResultGenPreparation`: only `pmid`,
`publicationDate`, `sources`, `title`, `doi` are consulted.  A falsy `pmid`
is modelled as `""`. -/
structure FinPub where
  pmid : String
  publicationDate : Option String
  sources : List String
  title : Option String
  doi : Option String
deriving DecidableEq, Repr

/-- The LLM's parsed classification content, `{hasResults, reason}`.
`detection?.content?.hasResults === true` is the positivity test; a missing
`reason` is modelled as `""`. -/
structure RContent where
  hasResults : Bool
  reason : String
deriving DecidableEq, Repr

/-- A parsed result file `result_results/{trialId}__{pmid}.json`:
`{content, tokens, success}`. -/
structure Detection where
  content : Option RContent
  tokens : Option Nat
  success : Bool
deriving DecidableEq, Repr

/-- The state of the result file for one `(trialId, pmid)` pair, as probed by
`fs.existsSync` + `JSON.parse` in `stageFinalize`. -/
inductive ResultFileState
  | absent
  | parseFailed (msg : String)
  | ok (d : Detection)
deriving DecidableEq, Repr

/-- One element of `detectionResults` in `stageFinalize`. -/
structure DetRes where
  pmid : String
  publicationDate : Option String
  sources : List String
  title : Option String
  doi : Option String
  result : Option RContent
  hasResults : Bool
  tokens : Option Nat
  success : Bool
  error : Option String
deriving DecidableEq, Repr

/-- The per-publication record `stageFinalize` builds for one publication
with a truthy pmid, given the state of its result file. -/
def buildDetRes (pub : FinPub) (fileState : ResultFileState) : DetRes :=
  let detection : Option Detection :=
    match fileState with
    | .ok d => some d
    | _ => none
  let loadError : Option String :=
    match fileState with
    | .parseFailed msg => some ("Parse error: " ++ msg)
    | _ => none
  { pmid := pub.pmid
    publicationDate := pub.publicationDate
    sources := pub.sources
    title := pub.title
    doi := pub.doi
    result := detection.bind (fun d => d.content)
    hasResults := match detection.bind (fun d => d.content) with
      | some c => c.hasResults
      | none => false
    tokens := detection.bind (fun d => d.tokens)
    success := match detection with
      | some d => d.success
      | none => false
    error := loadError }

/-- The pmids whose result file is absent or unparseable are pushed to
`failedResultDiscoveries`. -/
def resultFileFailed : ResultFileState → Bool
  | .absent => true
  | .parseFailed _ => true
  | .ok _ => false

/-- One element of `progress.publications[trialId].errors`: `{fn, message}`
as recorded by PUB_DISCOVERY; `fn` may be missing. -/
structure PubDiscoveryError where
  fn : Option String
  message : String
deriving DecidableEq, Repr

/-- The summary record of `stageFinalize` for one trial.  The list-valued
fields are joined with `","` (reasons with `"; "`) when the CSV row is
rendered; the joins are presentation only and are kept as lists here. -/
structure TrialSummary where
  nct_id : String
  trial_id : String
  tool_results : Bool
  has_error : Bool
  tool_prompted_pmids : List String
  tool_result_pmids : List String
  tool_ident_steps : List String
  earliest_result_publication : String
  earliest_result_publication_date : String
  failed_publication_discoveries : List String
  failed_result_discoveries : List String
  reasons : List String
deriving DecidableEq, Repr

/-- Comparator of the `sort` in `stageFinalize`'s earliest-publication
computation: ascending string order on `publicationDate`. -/
def detResDateLe (a b : DetRes) : Bool :=
  jsStrLe (a.publicationDate.getD "") (b.publicationDate.getD "")

/-- `detectionResults` of `stageFinalize` for one trial: one `DetRes` per
publication with a truthy pmid, in order. -/
def finalizeDetRes (pubs : List FinPub) (lookup : String → ResultFileState) :
    List DetRes :=
  (pubs.filter fun pub => ! (pub.pmid = "")).map fun pub => buildDetRes pub (lookup pub.pmid)

/-- `positives` of `stageFinalize`: the detection results with
`hasResults === true`. -/
def finalizePositives (pubs : List FinPub) (lookup : String → ResultFileState) :
    List DetRes :=
  (finalizeDetRes pubs lookup).filter fun r => r.hasResults

/-- `positivesWithDates` of `stageFinalize`: positives with a truthy pmid and
publication date. -/
def finalizePositivesWithDates (pubs : List FinPub)
    (lookup : String → ResultFileState) : List DetRes :=
  (finalizePositives pubs lookup).filter fun r =>
    ! (r.pmid = "") && jsTruthyOptStr r.publicationDate

/-- The body of `stageFinalize`'s per-trial loop (query-gen-poll.js shipped
file, lines 127-256), for a trial with a registration and publication data:
builds `detectionResults` and `failedResultDiscoveries` from the result files
(`lookup` models the directory `result_results/`), then the summary.
Returns the summary together with `detectionResults`. -/
def stageFinalizeTrial (trialId : String) (pubs : List FinPub)
    (pubErrors : List PubDiscoveryError) (lookup : String → ResultFileState) :
    TrialSummary × List DetRes :=
  let publicationsWithPmids := pubs.filter fun pub => ! (pub.pmid = "")
  let detectionResults := finalizeDetRes pubs lookup
  let failedResultDiscoveries :=
    (publicationsWithPmids.filter fun pub => resultFileFailed (lookup pub.pmid)).map
      fun pub => pub.pmid
  let promptedPmids := (detectionResults.map fun r => r.pmid).filter fun s => ! (s = "")
  let positives := finalizePositives pubs lookup
  let toolResultPmids := (positives.map fun r => r.pmid).filter fun s => ! (s = "")
  let toolIdentSteps :=
    (jsSetDedup ((positives.map fun r => r.sources).flatten)).filter fun s => ! (s = "")
  let sorted := jsSort detResDateLe (finalizePositivesWithDates pubs lookup)
  let earliest : String × String :=
    match sorted with
    | [] => ("", "")
    | e :: _ => (e.pmid, e.publicationDate.getD "")
  let failedPubDiscoveries :=
    ((pubErrors.map fun err => jsOrElseStr err.fn "unknown").filter fun s => ! (s = ""))
  let hasError := pubErrors.length > 0 || failedResultDiscoveries.length > 0
  let reasons :=
    ((positives.map fun r =>
        let reason := match r.result with
          | some c => c.reason
          | none => ""
        if reason = "" then "" else "PMID" ++ r.pmid ++ ": " ++ reason).filter
      fun s => ! (s = ""))
  ({ nct_id := trialId
     trial_id := trialId
     tool_results := positives.length > 0
     has_error := hasError
     tool_prompted_pmids := promptedPmids
     tool_result_pmids := toolResultPmids
     tool_ident_steps := toolIdentSteps
     earliest_result_publication := earliest.1
     earliest_result_publication_date := earliest.2
     failed_publication_discoveries := failedPubDiscoveries
     failed_result_discoveries := failedResultDiscoveries
     reasons := reasons }, detectionResults)

/-- Two concrete publications with PMIDs, dates and strategy sources. -/
def finalizePubsFixture : List FinPub :=
  [{ pmid := "111", publicationDate := some "2021-03",
     sources := ["linked_at_registration"], title := some "A", doi := none },
   { pmid := "222", publicationDate := some "2020",
     sources := ["pubmed_naive"], title := some "B", doi := none }]

/-- A result directory where every pair's classification exists, parsed and
positive. -/
def finalizeLookupFixture : String → ResultFileState := fun _ =>
  .ok { content := some { hasResults := true, reason := "reports the trial results" }
        tokens := some 10
        success := true }

/-! Section: Batch chunk packing (`stageResultGenPreparation`,
result-gen-preparation.js lines 24-160) -/

/-- The pipeline stages of the batch runner (`STAGES` in
`runner/batch/utils/constants.js`; that file is not shipped, the stage names
are the ones used throughout the shipped stages and listed in the spec). -/
inductive Stage
  | PREP
  | QUERY_GEN_UPLOAD
  | QUERY_GEN_POLL
  | QUERY_GEN_PROCESS
  | PUB_DISCOVERY
  | RESULT_GEN_PREPARATION
  | RESULT_GEN_UPLOAD
  | RESULT_GEN_POLL
  | RESULT_GEN_PROCESS
  | FINALIZE
  | COST_CALCULATION
  | COMPLETE
deriving DecidableEq, Repr

/-- Chunk lifecycle statuses. -/
inductive ChunkStatus
  | pending
  | uploaded
  | inProgress
  | validating
  | finalizing
  | completed
  | processed
  | failed
deriving DecidableEq, Repr

/-- One classification request as the packing loop sees it:
`requestTotalTokens` (the `ceil(length/4)` estimate of system plus user
prompt) and the serialized byte count `Buffer.byteLength(JSON.stringify(
request), "utf8")`.  Prompt construction and JSON serialization are external
to the packing logic and are abstracted into these two numbers. -/
structure BReq where
  tokens : Nat
  bytes : Nat
deriving DecidableEq, Repr

/-- The in-memory chunk object of the packing loop. -/
structure BChunk where
  index : Nat
  requests : List BReq
  tokens : Nat
  bytes : Nat
deriving DecidableEq, Repr

/-- The packing loop of `stageResultGenPreparation` (lines 44-160): before
adding a request, if the current chunk is full (`requests.length >=
maxRequestsPerBatch` or `bytes + requestBytes > effectiveMaxBytes`) the
current chunk is sealed (its JSONL file written) and a fresh chunk started;
the request is then added unconditionally.  At the end the final chunk is
kept only if non-empty.  There is no error path: an oversized request simply
starts (and overflows) a fresh chunk. -/
def packGo (maxRequestsPerBatch effectiveMaxBytes : Nat)
    (finished : List BChunk) (currentChunk : BChunk) :
    List BReq → List BChunk
  | [] =>
    if currentChunk.requests.length > 0 then finished ++ [currentChunk] else finished
  | r :: rest =>
    if maxRequestsPerBatch ≤ currentChunk.requests.length ∨
        effectiveMaxBytes < currentChunk.bytes + r.bytes then
      packGo maxRequestsPerBatch effectiveMaxBytes (finished ++ [currentChunk])
        { index := finished.length + 1
          requests := [r]
          tokens := r.tokens
          bytes := r.bytes } rest
    else
      packGo maxRequestsPerBatch effectiveMaxBytes finished
        { currentChunk with
          requests := currentChunk.requests ++ [r]
          tokens := currentChunk.tokens + r.tokens
          bytes := currentChunk.bytes + r.bytes } rest

/-- The chunk list built by `stageResultGenPreparation` for a given request
stream. -/
def stageResultGenPreparationChunks (maxRequestsPerBatch effectiveMaxBytes : Nat)
    (reqs : List BReq) : List BChunk :=
  packGo maxRequestsPerBatch effectiveMaxBytes [] { index := 0, requests := [], tokens := 0, bytes := 0 } reqs

/-- Per-chunk metadata persisted into `progress.batchJobs.resultDetection`. -/
structure ChunkMeta where
  index : Nat
  requestCount : Nat
  estimatedTokens : Nat
  sizeBytes : Nat
  status : ChunkStatus
deriving DecidableEq, Repr

/-- `chunksMetadata` of `stageResultGenPreparation` (lines 170-177); the
`inputFile` name `result_gen_input_chunk_{index}.jsonl` is omitted. -/
def chunkMetas (chunks : List BChunk) : List ChunkMeta :=
  chunks.map fun c =>
    { index := c.index
      requestCount := c.requests.length
      estimatedTokens := c.tokens
      sizeBytes := c.bytes
      status := .pending }

/-- `Math.floor(maxBytesPerBatch * safetyBuffer)` (line 29). -/
def effectiveMaxBytesOf (maxBytesPerBatch : Nat) (safetyBuffer : ℚ) : ℤ :=
  ⌊(maxBytesPerBatch : ℚ) * safetyBuffer⌋

/-! Section: Daily-budget upload (`stageResultGenUpload`, result-gen-process.js
shipped file, second half, lines 154-269) -/

/-- A chunk as read by `stageResultGenUpload`.  The fields set from the
OpenAI response at upload time (`batchId`, `inputFileId`, `uploadedAt`) are
opaque external identifiers and are omitted. -/
structure UChunk where
  index : Nat
  requestCount : Nat
  estimatedTokens : Int
  sizeBytes : Nat
  status : ChunkStatus
deriving DecidableEq, Repr

/-- `dailyTokensUsed` of `progress.batchJobs.resultDetection`. -/
structure DailyTokensUsed where
  date : String
  tokens : Int
deriving DecidableEq, Repr

/-- `progress.batchJobs.resultDetection` as used by the upload stage. -/
structure ResultDetectionState where
  chunks : List UChunk
  dailyTokensUsed : DailyTokensUsed
deriving DecidableEq, Repr

/-- Sort key of `pendingChunks`: `(a, b) => a.index - b.index`. -/
def chunkIndexLe (a b : UChunk) : Bool := a.index ≤ b.index

/-- The selection loop over the index-sorted pending chunks: take chunks
while each fits into the remaining `tokenBudget`, stop at the first that does
not. -/
def greedySelect (tokenBudget : Int) : List UChunk → List UChunk
  | [] => []
  | c :: rest =>
    if c.estimatedTokens ≤ tokenBudget then
      c :: greedySelect (tokenBudget - c.estimatedTokens) rest
    else []

/-- Summed `estimatedTokens` of a chunk list. -/
def sumTokens (l : List UChunk) : Int := (l.map fun c => c.estimatedTokens).sum

/-- Outcome of a successful `stageResultGenUpload` run: the updated
`resultDetection` state and the next stage. -/
structure UploadOutcome where
  state : ResultDetectionState
  stage : Stage
deriving DecidableEq, Repr

/-- The daily-quota reset at the top of `stageResultGenUpload`: if
`dailyTokensUsed.date !== today`, set `{date: today, tokens: 0}`. -/
def uploadDtu (today : String) (rd : ResultDetectionState) : DailyTokensUsed :=
  if rd.dailyTokensUsed.date ≠ today then
    { date := today, tokens := 0 }
  else rd.dailyTokensUsed

/-- `pendingChunks` of `stageResultGenUpload`: the chunks with status
`pending`, sorted by `index`. -/
def uploadPending (rd : ResultDetectionState) : List UChunk :=
  jsSort chunkIndexLe (rd.chunks.filter fun c => c.status = ChunkStatus.pending)

/-- `chunksToUpload` of `stageResultGenUpload`: the greedy selection from the
pending chunks against the remaining daily budget. -/
def uploadSelected (maxTokensPerDay : Int) (today : String)
    (rd : ResultDetectionState) : List UChunk :=
  greedySelect (maxTokensPerDay - (uploadDtu today rd).tokens) (uploadPending rd)

/-- `stageResultGenUpload` (lines 154-269): reset `dailyTokensUsed` on a new
day; sort the pending chunks by index; greedily select the ones that fit the
remaining daily budget; throw `Daily token quota exhausted` when none fits
while pending chunks remain; otherwise mark the selected chunks `uploaded`
and add their `estimatedTokens` to `dailyTokensUsed.tokens`.  (The parallel
uploads commute: each adds one chunk's tokens and touches one chunk.)
Chunk indices are assumed unique, as `stageResultGenPreparation` creates
them. -/
def stageResultGenUpload (maxTokensPerDay : Int) (today : String)
    (rd : ResultDetectionState) : Except String UploadOutcome :=
  if (uploadPending rd).isEmpty then
    .ok { state := { chunks := rd.chunks, dailyTokensUsed := uploadDtu today rd },
          stage := .RESULT_GEN_POLL }
  else if (uploadSelected maxTokensPerDay today rd).isEmpty then
    .error "Daily token quota exhausted"
  else
    .ok
      { state :=
          { chunks := rd.chunks.map fun c =>
              if c.status = ChunkStatus.pending ∧
                  c.index ∈ (uploadSelected maxTokensPerDay today rd).map (fun c2 => c2.index) then
                { c with status := .uploaded }
              else c
            dailyTokensUsed :=
              { date := (uploadDtu today rd).date
                tokens := (uploadDtu today rd).tokens +
                  sumTokens (uploadSelected maxTokensPerDay today rd) } }
        stage := .RESULT_GEN_POLL }

/-- A concrete `resultDetection` state: three pending 60-token chunks and a
fresh daily counter, as in the daily-budget scenario with
`maxTokensPerDay = 100`. -/
def uploadFixture : ResultDetectionState :=
  { chunks :=
      [{ index := 0, requestCount := 2, estimatedTokens := 60, sizeBytes := 900,
         status := .pending },
       { index := 1, requestCount := 2, estimatedTokens := 60, sizeBytes := 910,
         status := .pending },
       { index := 2, requestCount := 1, estimatedTokens := 60, sizeBytes := 450,
         status := .pending }]
    dailyTokensUsed := { date := "2024-03-01", tokens := 0 } }

/-! Section: Progress loading (`loadProgress`, progress.js / `src/unnamed/part_000`
lines 4-70) -/

/-- The fields of a parsed progress file that `loadProgress` reads.  The
mapping-valued fields are modelled as association lists with opaque string
payloads; `none` models a missing/falsy field. -/
structure ProgressJson where
  input : Option String
  stage : Option String
  batchJobs : Option (List (String × String))
  rows : Option (List (String × String))
  registrations : Option (List (String × String))
  publications : Option (List (String × String))
  skippedCounts : Option (Nat × Nat)
  startedAt : Option String
deriving DecidableEq, Repr

/-- The Progress record `loadProgress` returns.  `stage` is the raw string
stored in the JSON (the `STAGES` constants are plain strings). -/
structure Progress where
  input : String
  stage : String
  batchJobs : List (String × String)
  rows : List (String × String)
  registrations : List (String × String)
  publications : List (String × String)
  skippedNoTrialId : Nat
  skippedNoRegistration : Nat
  startedAt : String
deriving DecidableEq, Repr

/-- What reading and parsing the progress file yielded: the file is absent,
it is present but `JSON.parse`/`readFileSync` threw, or it parsed. -/
inductive ProgressFileRead
  | absent
  | unparseable
  | parsed (p : ProgressJson)
deriving DecidableEq, Repr

/-- The fresh Progress object that `loadProgress` builds in all three of its
fallback branches. -/
def freshProgress (inputPath now : String) : Progress :=
  { input := inputPath
    stage := "PREP"
    batchJobs := []
    rows := []
    registrations := []
    publications := []
    skippedNoTrialId := 0
    skippedNoRegistration := 0
    startedAt := now }

/-- `loadProgress` (progress.js lines 4-70): fresh when the file is absent or
unreadable, fresh when the stored `input` is truthy and differs from the
current input path, otherwise resume with per-field defaults. -/
def loadProgress (file : ProgressFileRead) (inputPath now : String) : Progress :=
  match file with
  | .absent => freshProgress inputPath now
  | .unparseable => freshProgress inputPath now
  | .parsed p =>
    if jsTruthyOptStr p.input ∧ p.input ≠ some inputPath then
      freshProgress inputPath now
    else
      { input := inputPath
        stage := jsOrElseStr p.stage "PREP"
        batchJobs := p.batchJobs.getD []
        rows := p.rows.getD []
        registrations := p.registrations.getD []
        publications := p.publications.getD []
        skippedNoTrialId := (p.skippedCounts.getD (0, 0)).1
        skippedNoRegistration := (p.skippedCounts.getD (0, 0)).2
        startedAt := jsOrElseStr p.startedAt now }

/-- A concrete parsed progress file with no `input` field: a stored
mid-pipeline run whose recorded input path is absent. -/
def progressJsonNoInput : ProgressJson :=
  { input := none
    stage := some "FINALIZE"
    batchJobs := some [("resultDetection", "chunks")]
    rows := none
    registrations := none
    publications := none
    skippedCounts := none
    startedAt := some "2024-01-01T00:00:00Z" }

/-- A concrete parsed progress file whose `input` matches `data.csv`. -/
def progressJsonMatching : ProgressJson :=
  { input := some "data.csv"
    stage := some "PUB_DISCOVERY"
    batchJobs := none
    rows := none
    registrations := none
    publications := none
    skippedCounts := some (3, 1)
    startedAt := some "t0" }

/-! Section: Auxiliary lemmas about the JS platform models -/

theorem jsSetDedupGo_mem [DecidableEq α] (seen : List α) (l : List α) (x : α) :
    x ∈ jsSetDedupGo seen l ↔ x ∈ l ∧ x ∉ seen := by
  induction l generalizing seen with
  | nil => simp [jsSetDedupGo]
  | cons y ys ih =>
    by_cases hy : y ∈ seen
    · simp only [jsSetDedupGo, if_pos hy, ih, List.mem_cons]
      constructor
      · rintro ⟨hx, hs⟩; exact ⟨Or.inr hx, hs⟩
      · rintro ⟨hx | hx, hs⟩
        · exact absurd (hx ▸ hy) hs
        · exact ⟨hx, hs⟩
    · simp only [jsSetDedupGo, if_neg hy, List.mem_cons, ih, not_or]
      constructor
      · rintro (rfl | ⟨hx, hne, hs⟩)
        · exact ⟨Or.inl rfl, hy⟩
        · exact ⟨Or.inr hx, hs⟩
      · rintro ⟨hx | hx, hs⟩
        · exact Or.inl hx
        · by_cases hxy : x = y
          · exact Or.inl hxy
          · exact Or.inr ⟨hx, hxy, hs⟩

theorem jsSetDedup_mem [DecidableEq α] (l : List α) (x : α) :
    x ∈ jsSetDedup l ↔ x ∈ l := by
  simp [jsSetDedup, jsSetDedupGo_mem]

theorem jsStrLtChars_irrefl (l : List Char) : jsStrLtChars l l = false := by
  induction l with
  | nil => rfl
  | cons a as ih => simp [jsStrLtChars, lt_irrefl, ih]

theorem jsStrLtChars_trans :
    ∀ {a b c : List Char}, jsStrLtChars a b = true → jsStrLtChars b c = true →
      jsStrLtChars a c = true := by
  intro a
  induction a with
  | nil =>
    intro b c hab hbc
    cases b with
    | nil => simp [jsStrLtChars] at hab
    | cons x xs =>
      cases c with
      | nil => simp [jsStrLtChars] at hbc
      | cons y ys => simp [jsStrLtChars]
  | cons a as ih =>
    intro b c hab hbc
    cases b with
    | nil => simp [jsStrLtChars] at hab
    | cons x xs =>
      cases c with
      | nil => simp [jsStrLtChars] at hbc
      | cons y ys =>
        simp only [jsStrLtChars] at hab hbc ⊢
        by_cases h1 : a < x
        · by_cases h2 : x < y
          · simp [lt_trans h1 h2]
          · simp only [if_neg h2] at hbc
            by_cases h3 : y < x
            · simp [if_pos h3] at hbc
            · have hxy : x = y := le_antisymm (not_lt.mp h3) (not_lt.mp h2)
              simp [hxy ▸ h1]
        · simp only [if_neg h1] at hab
          by_cases h1' : x < a
          · simp [if_pos h1'] at hab
          · simp only [if_neg h1'] at hab
            have hax : a = x := le_antisymm (not_lt.mp h1') (not_lt.mp h1)
            subst hax
            by_cases h2 : a < y
            · simp [h2]
            · simp only [if_neg h2] at hbc ⊢
              by_cases h3 : y < a
              · simp [if_pos h3] at hbc
              · simp only [if_neg h3] at hbc ⊢
                exact ih hab hbc

theorem jsStrLtChars_connex :
    ∀ (a b : List Char), jsStrLtChars a b = true ∨ jsStrLtChars b a = true ∨ a = b := by
  intro a
  induction a with
  | nil =>
    intro b
    cases b with
    | nil => exact Or.inr (Or.inr rfl)
    | cons y ys => exact Or.inl (by simp [jsStrLtChars])
  | cons a as ih =>
    intro b
    cases b with
    | nil => exact Or.inr (Or.inl (by simp [jsStrLtChars]))
    | cons y ys =>
      rcases lt_trichotomy a y with h | h | h
      · exact Or.inl (by simp [jsStrLtChars, h])
      · subst h
        rcases ih ys with h2 | h2 | h2
        · exact Or.inl (by simp [jsStrLtChars, lt_irrefl, h2])
        · exact Or.inr (Or.inl (by simp [jsStrLtChars, lt_irrefl, h2]))
        · exact Or.inr (Or.inr (by rw [h2]))
      · exact Or.inr (Or.inl (by simp [jsStrLtChars, h]))

theorem jsStrLe_refl (a : String) : jsStrLe a a = true := by
  simp [jsStrLe, jsStrLt, jsStrLtChars_irrefl]

theorem jsStrLe_total (a b : String) : jsStrLe a b = true ∨ jsStrLe b a = true := by
  by_cases h : jsStrLt b a = true
  · right
    simp only [jsStrLe, Bool.not_eq_true']
    by_cases h2 : jsStrLt a b = true
    · exact absurd (jsStrLtChars_trans h h2) (by simp [jsStrLt, jsStrLtChars_irrefl])
    · simpa using h2
  · left
    simp only [jsStrLe]
    simp only [Bool.not_eq_true] at h
    simp [h]

theorem jsStrLe_trans {a b c : String} (hab : jsStrLe a b = true)
    (hbc : jsStrLe b c = true) : jsStrLe a c = true := by
  simp only [jsStrLe, jsStrLt, Bool.not_eq_true'] at hab hbc ⊢
  by_contra hcontra
  simp only [Bool.not_eq_false] at hcontra
  rcases jsStrLtChars_connex b.data c.data with h2 | h2 | h2
  · have h3 := jsStrLtChars_trans h2 hcontra
    rw [h3] at hab
    exact Bool.true_eq_false.mp hab
  · rw [h2] at hbc
    exact Bool.true_eq_false.mp hbc
  · rw [h2] at hab
    rw [hcontra] at hab
    exact Bool.true_eq_false.mp hab

theorem jsSortInsert_perm (le : α → α → Bool) (a : α) (l : List α) :
    (jsSortInsert le a l).Perm (a :: l) := by
  induction l with
  | nil => simp [jsSortInsert]
  | cons b l ih =>
    simp only [jsSortInsert]
    split
    · exact List.Perm.refl _
    · exact (List.Perm.cons b ih).trans (List.Perm.swap a b l)

theorem jsSort_perm (le : α → α → Bool) (l : List α) : (jsSort le l).Perm l := by
  induction l with
  | nil => simp [jsSort]
  | cons a l ih =>
    exact (jsSortInsert_perm le a (jsSort le l)).trans (ih.cons a)

theorem jsSort_mem (le : α → α → Bool) (l : List α) (x : α) :
    x ∈ jsSort le l ↔ x ∈ l :=
  (jsSort_perm le l).mem_iff

theorem jsSortInsert_pairwise (le : α → α → Bool)
    (htrans : ∀ a b c, le a b = true → le b c = true → le a c = true)
    (htot : ∀ a b, le a b = true ∨ le b a = true)
    (a : α) (l : List α) (h : l.Pairwise fun x y => le x y = true) :
    (jsSortInsert le a l).Pairwise fun x y => le x y = true := by
  induction l with
  | nil => simp [jsSortInsert]
  | cons b l ih =>
    simp only [jsSortInsert]
    rcases List.pairwise_cons.mp h with ⟨hb, hl⟩
    by_cases hab : le a b = true
    · simp only [if_pos hab]
      refine List.pairwise_cons.mpr ⟨?_, h⟩
      intro c hc
      rcases List.mem_cons.mp hc with rfl | hc
      · exact hab
      · exact htrans a b c hab (hb c hc)
    · simp only [if_neg hab]
      refine List.pairwise_cons.mpr ⟨?_, ih hl⟩
      intro c hc
      rcases List.mem_cons.mp ((jsSortInsert_perm le a l).mem_iff.mp hc) with rfl | h2
      · rcases htot c b with h3 | h3
        · exact absurd h3 hab
        · exact h3
      · exact hb c h2

theorem jsSort_pairwise (le : α → α → Bool)
    (htrans : ∀ a b c, le a b = true → le b c = true → le a c = true)
    (htot : ∀ a b, le a b = true ∨ le b a = true) (l : List α) :
    (jsSort le l).Pairwise fun x y => le x y = true := by
  induction l with
  | nil => simp [jsSort]
  | cons a l ih => exact jsSortInsert_pairwise le htrans htot a _ ih

theorem jsSort_head_min (le : α → α → Bool)
    (htrans : ∀ a b c, le a b = true → le b c = true → le a c = true)
    (htot : ∀ a b, le a b = true ∨ le b a = true) (l : List α) (x : α) (rest : List α)
    (h : jsSort le l = x :: rest) : x ∈ l ∧ ∀ q ∈ l, le x q = true := by
  constructor
  · exact (jsSort_mem le l x).mp (h ▸ List.mem_cons_self x rest)
  · intro q hq
    have hq2 : q ∈ x :: rest := h ▸ (jsSort_mem le l q).mpr hq
    rcases List.mem_cons.mp hq2 with rfl | hq2
    · rcases htot q q with h3 | h3 <;> exact h3
    · have hp := jsSort_pairwise le htrans htot l
      rw [h] at hp
      exact (List.pairwise_cons.mp hp).1 q hq2

theorem sumTokens_nil : sumTokens [] = 0 := rfl

theorem sumTokens_cons (c : UChunk) (l : List UChunk) :
    sumTokens (c :: l) = c.estimatedTokens + sumTokens l := by
  simp [sumTokens]

theorem sumTokens_nonneg {l : List UChunk} (h : ∀ c ∈ l, 0 ≤ c.estimatedTokens) :
    0 ≤ sumTokens l := by
  induction l with
  | nil => simp [sumTokens]
  | cons c l ih =>
    rw [sumTokens_cons]
    have h1 := h c (List.mem_cons_self c l)
    have h2 := ih fun d hd => h d (List.mem_cons_of_mem c hd)
    omega

theorem greedySelect_take (B : Int) (l : List UChunk) :
    greedySelect B l = l.take (greedySelect B l).length := by
  induction l generalizing B with
  | nil => rfl
  | cons c rest ih =>
    simp only [greedySelect]
    split
    · simp only [List.length_cons, List.take_succ_cons, List.cons.injEq, true_and]
      exact ih (B - c.estimatedTokens)
    · rfl

theorem greedySelect_spec (B : Int) (l : List UChunk)
    (hnn : ∀ c ∈ l, 0 ≤ c.estimatedTokens) :
    ∀ n, 0 < n → n ≤ l.length →
      (sumTokens (l.take n) ≤ B ↔ n ≤ (greedySelect B l).length) := by
  induction l generalizing B with
  | nil =>
    intro n hn1 hn
    simp at hn
    omega
  | cons c rest ih =>
    intro n hn1 hn
    by_cases hc : c.estimatedTokens ≤ B
    · simp only [greedySelect, if_pos hc, List.length_cons]
      rcases n with _ | m
      · omega
      · rcases m with _ | m'
        · simp only [List.take_succ_cons, List.take_zero]
          rw [sumTokens_cons, sumTokens_nil]
          constructor
          · intro _; omega
          · intro _; omega
        · have hm2 : m' + 1 ≤ rest.length := by
            simp only [List.length_cons] at hn
            omega
          have hiff := ih (B - c.estimatedTokens)
            (fun d hd => hnn d (List.mem_cons_of_mem c hd)) (m' + 1) (Nat.succ_pos m') hm2
          simp only [List.take_succ_cons]
          rw [sumTokens_cons]
          have h4 : c.estimatedTokens + sumTokens (rest.take (m' + 1)) ≤ B ↔
              sumTokens (rest.take (m' + 1)) ≤ B - c.estimatedTokens := by omega
          rw [h4, hiff]
          omega
    · simp only [greedySelect, if_neg hc, List.length_nil]
      rcases n with _ | m
      · omega
      · simp only [List.take_succ_cons]
        rw [sumTokens_cons]
        have hs : 0 ≤ sumTokens (rest.take m) :=
          sumTokens_nonneg fun d hd =>
            hnn d (List.mem_cons_of_mem c (List.mem_of_mem_take hd))
        omega

/-- Summed serialized bytes of a request list. -/
def sumBytes (l : List BReq) : Nat := (l.map fun r => r.bytes).sum

theorem packGo_bounded (maxReq eff : Nat) (hmax : 1 ≤ maxReq) :
    ∀ (rest : List BReq) (finished : List BChunk) (cur : BChunk),
      (∀ r ∈ rest, r.bytes ≤ eff) →
      (∀ c ∈ finished, c.requests.length ≤ maxReq ∧ c.bytes ≤ eff) →
      cur.requests.length ≤ maxReq → cur.bytes ≤ eff →
      ∀ c ∈ packGo maxReq eff finished cur rest,
        c.requests.length ≤ maxReq ∧ c.bytes ≤ eff := by
  intro rest
  induction rest with
  | nil =>
    intro finished cur _ hfin hcl hcb c hc
    simp only [packGo] at hc
    split at hc
    · rcases List.mem_append.mp hc with h | h
      · exact hfin c h
      · rw [List.mem_singleton.mp h]
        exact ⟨hcl, hcb⟩
    · exact hfin c hc
  | cons r rest' ih =>
    intro finished cur hrest hfin hcl hcb c hc
    simp only [packGo] at hc
    split at hc
    · refine ih (finished ++ [cur]) _ (fun q hq => hrest q (List.mem_cons_of_mem r hq))
        (fun d hd => ?_) (by simpa using hmax)
        (by simpa using hrest r (List.mem_cons_self r rest')) c hc
      rcases List.mem_append.mp hd with h | h
      · exact hfin d h
      · rw [List.mem_singleton.mp h]
        exact ⟨hcl, hcb⟩
    · rename_i hcond
      push_neg at hcond
      refine ih finished _ (fun q hq => hrest q (List.mem_cons_of_mem r hq)) hfin
        ?_ ?_ c hc
      · simp only [List.length_append, List.length_cons, List.length_nil]
        omega
      · simp only []
        omega

theorem packGo_mem_finished (maxReq eff : Nat) :
    ∀ (rest : List BReq) (finished : List BChunk) (cur : BChunk) (c : BChunk),
      c ∈ finished → c ∈ packGo maxReq eff finished cur rest := by
  intro rest
  induction rest with
  | nil =>
    intro finished cur c hc
    simp only [packGo]
    split
    · exact List.mem_append.mpr (Or.inl hc)
    · exact hc
  | cons r rest' ih =>
    intro finished cur c hc
    simp only [packGo]
    split
    · exact ih _ _ c (List.mem_append.mpr (Or.inl hc))
    · exact ih _ _ c hc

theorem packGo_mem_cur (maxReq eff : Nat) :
    ∀ (rest : List BReq) (finished : List BChunk) (cur : BChunk) (r : BReq),
      r ∈ cur.requests →
      ∃ c ∈ packGo maxReq eff finished cur rest, r ∈ c.requests := by
  intro rest
  induction rest with
  | nil =>
    intro finished cur r hr
    simp only [packGo]
    have hne : 0 < cur.requests.length := List.length_pos.mpr (List.ne_nil_of_mem hr)
    rw [if_pos hne]
    exact ⟨cur, List.mem_append.mpr (Or.inr (List.mem_singleton_self cur)), hr⟩
  | cons q rest' ih =>
    intro finished cur r hr
    simp only [packGo]
    split
    · refine ⟨cur, ?_, hr⟩
      exact packGo_mem_finished maxReq eff rest' _ _ cur
        (List.mem_append.mpr (Or.inr (List.mem_singleton_self cur)))
    · exact ih finished _ r (List.mem_append.mpr (Or.inl hr))

theorem packGo_mem_rest (maxReq eff : Nat) :
    ∀ (rest : List BReq) (finished : List BChunk) (cur : BChunk) (r : BReq),
      r ∈ rest →
      ∃ c ∈ packGo maxReq eff finished cur rest, r ∈ c.requests := by
  intro rest
  induction rest with
  | nil =>
    intro _ _ r hr
    simp at hr
  | cons q rest' ih =>
    intro finished cur r hr
    rcases List.mem_cons.mp hr with rfl | hr
    · simp only [packGo]
      split
      · exact packGo_mem_cur maxReq eff rest' _ _ r (List.mem_singleton_self r)
      · exact packGo_mem_cur maxReq eff rest' _ _ r
          (List.mem_append.mpr (Or.inr (List.mem_singleton_self r)))
    · simp only [packGo]
      split
      · exact ih _ _ r hr
      · exact ih _ _ r hr

theorem packGo_bytes_sum (maxReq eff : Nat) :
    ∀ (rest : List BReq) (finished : List BChunk) (cur : BChunk),
      (∀ c ∈ finished, c.bytes = sumBytes c.requests) →
      cur.bytes = sumBytes cur.requests →
      ∀ c ∈ packGo maxReq eff finished cur rest, c.bytes = sumBytes c.requests := by
  intro rest
  induction rest with
  | nil =>
    intro finished cur hfin hcur c hc
    simp only [packGo] at hc
    split at hc
    · rcases List.mem_append.mp hc with h | h
      · exact hfin c h
      · rw [List.mem_singleton.mp h]
        exact hcur
    · exact hfin c hc
  | cons r rest' ih =>
    intro finished cur hfin hcur c hc
    simp only [packGo] at hc
    split at hc
    · refine ih _ _ (fun d hd => ?_) (by simp [sumBytes]) c hc
      rcases List.mem_append.mp hd with h | h
      · exact hfin d h
      · rw [List.mem_singleton.mp h]
        exact hcur
    · refine ih _ _ hfin ?_ c hc
      simp only [sumBytes, List.map_append, List.sum_append, List.map_cons,
        List.sum_cons, List.map_nil, List.sum_nil]
      simp only [sumBytes] at hcur
      omega

/-! Section: Lemmas about `removeDuplicatePublications` -/

theorem removeDuplicatePublicationsGo_id {α : Type} (rest : List (DPub α)) :
    ∀ acc : List (DPub α), (((acc ++ rest).map fun e => e.pmid)).Nodup →
      (∀ p ∈ rest, p.pmid ≠ "") →
      removeDuplicatePublicationsGo acc rest = .ok (acc ++ rest) := by
  induction rest with
  | nil =>
    intro acc _ _
    simp [removeDuplicatePublicationsGo]
  | cons cur rest' ih =>
    intro acc hnodup hne
    have hcur : ¬ cur.pmid = "" := hne cur (List.mem_cons_self cur rest')
    have hnotin : cur.pmid ∉ acc.map fun e => e.pmid := by
      intro hmem
      have hd := List.disjoint_of_nodup_append
        (by simpa only [List.map_append] using hnodup)
      exact hd hmem (by simp)
    have hany : acc.any (fun e => e.pmid = cur.pmid) = false := by
      rw [List.any_eq_false]
      intro e he
      simp only [decide_eq_true_eq]
      intro hpm
      exact hnotin (hpm ▸ List.mem_map_of_mem _ he)
    simp only [removeDuplicatePublicationsGo, if_neg hcur, hany, Bool.false_eq_true,
      if_false]
    have := ih (acc ++ [cur])
      (by simpa only [List.append_assoc, List.singleton_append] using hnodup)
      (fun p hp => hne p (List.mem_cons_of_mem cur hp))
    rw [this]
    simp

theorem removeDuplicatePublicationsGo_spec {α : Type} (rest : List (DPub α)) :
    ∀ acc : List (DPub α), ((acc.map fun e => e.pmid)).Nodup →
      (∀ p ∈ rest, p.pmid ≠ "") →
      ∃ out, removeDuplicatePublicationsGo acc rest = .ok out ∧
        ((out.map fun e => e.pmid)).Nodup ∧
        (∀ e ∈ out, (e.pmid ∈ acc.map fun a => a.pmid) ∨
          (e.pmid ∈ rest.map fun p => p.pmid)) ∧
        (∀ e ∈ out, ∀ s, s ∈ e.sources ↔
          (∃ a ∈ acc, a.pmid = e.pmid ∧ s ∈ a.sources) ∨
          (∃ p ∈ rest, p.pmid = e.pmid ∧ s ∈ p.sources)) ∧
        (∀ a ∈ acc, ∃ e ∈ out, e.pmid = a.pmid) ∧
        (∀ p ∈ rest, ∃ e ∈ out, e.pmid = p.pmid) := by
  induction rest with
  | nil =>
    intro acc hnodup _
    refine ⟨acc, rfl, hnodup, fun e he => Or.inl (List.mem_map_of_mem _ he),
      fun e he s => ?_, fun a ha => ⟨a, ha, rfl⟩, by simp⟩
    constructor
    · intro hs
      exact Or.inl ⟨e, he, rfl, hs⟩
    · rintro (⟨a, ha, hpm, hs⟩ | ⟨p, hp, _, _⟩)
      · have : a = e := List.inj_on_of_nodup_map hnodup ha he hpm
        exact this ▸ hs
      · simp at hp
  | cons cur rest' ih =>
    intro acc hnodup hne
    have hcur : ¬ cur.pmid = "" := hne cur (List.mem_cons_self cur rest')
    have hnetail : ∀ p ∈ rest', p.pmid ≠ "" :=
      fun p hp => hne p (List.mem_cons_of_mem cur hp)
    by_cases hdup : acc.any (fun e => e.pmid = cur.pmid) = true
    · -- merge branch
      have hex : ∃ a ∈ acc, a.pmid = cur.pmid := by
        rcases List.any_eq_true.mp hdup with ⟨a, ha, hpa⟩
        exact ⟨a, ha, of_decide_eq_true hpa⟩
      set f : DPub α → DPub α := fun e =>
        if e.pmid = cur.pmid then
          { e with sources := jsSetDedup (cur.sources ++ e.sources) }
        else e with hf
      have hfpmid : ∀ e : DPub α, (f e).pmid = e.pmid := by
        intro e
        simp only [hf]
        split <;> rfl
      have hmap : (acc.map f).map (fun e => e.pmid) = acc.map fun e => e.pmid := by
        rw [List.map_map]
        exact List.map_congr_left fun e _ => hfpmid e
      rcases ih (acc.map f) (by rw [hmap]; exact hnodup) hnetail with
        ⟨out, hgo, hnd, horig, hsrc, hcov, hcov'⟩
      refine ⟨out, ?_, hnd, ?_, ?_, ?_, ?_⟩
      · simp only [removeDuplicatePublicationsGo, if_neg hcur, hdup, if_true]
        exact hgo
      · intro e he
        rcases horig e he with h | h
        · exact Or.inl (by rwa [hmap] at h)
        · exact Or.inr (by simpa using Or.inr (by simpa using h))
      · intro e he s
        rw [hsrc e he s]
        constructor
        · rintro (⟨a', ha', hpm', hs'⟩ | ⟨p, hp, hpm, hs⟩)
          · rcases List.mem_map.mp ha' with ⟨a, ha, rfl⟩
            by_cases hac : a.pmid = cur.pmid
            · have hsources : (f a).sources = jsSetDedup (cur.sources ++ a.sources) := by
                simp only [hf, if_pos hac]
              rw [hsources] at hs'
              rcases List.mem_append.mp ((jsSetDedup_mem _ s).mp hs') with h | h
              · exact Or.inr ⟨cur, List.mem_cons_self cur rest',
                  by rw [← hpm', hfpmid a, hac], h⟩
              · exact Or.inl ⟨a, ha, by rw [← hpm', hfpmid a], h⟩
            · have : f a = a := by simp only [hf, if_neg hac]
              rw [this] at hpm' hs'
              exact Or.inl ⟨a, ha, hpm', hs'⟩
          · exact Or.inr ⟨p, List.mem_cons_of_mem cur hp, hpm, hs⟩
        · rintro (⟨a, ha, hpm, hs⟩ | ⟨p, hp, hpm, hs⟩)
          · refine Or.inl ⟨f a, List.mem_map_of_mem f ha, by rw [hfpmid a]; exact hpm, ?_⟩
            by_cases hac : a.pmid = cur.pmid
            · simp only [hf, if_pos hac]
              exact (jsSetDedup_mem _ s).mpr (List.mem_append.mpr (Or.inr hs))
            · simp only [hf, if_neg hac]
              exact hs
          · rcases List.mem_cons.mp hp with rfl | hp
            · rcases hex with ⟨a, ha, hac⟩
              refine Or.inl ⟨f a, List.mem_map_of_mem f ha,
                by rw [hfpmid a, hac]; exact hpm, ?_⟩
              simp only [hf, if_pos hac]
              exact (jsSetDedup_mem _ s).mpr (List.mem_append.mpr (Or.inl hs))
            · exact Or.inr ⟨p, hp, hpm, hs⟩
      · intro a ha
        rcases hcov (f a) (List.mem_map_of_mem f ha) with ⟨e, he, hpm⟩
        exact ⟨e, he, by rwa [hfpmid a] at hpm⟩
      · intro p hp
        rcases List.mem_cons.mp hp with rfl | hp
        · rcases hex with ⟨a, ha, hac⟩
          rcases hcov (f a) (List.mem_map_of_mem f ha) with ⟨e, he, hpm⟩
          exact ⟨e, he, by rwa [hfpmid a, hac] at hpm⟩
        · exact hcov' p hp
    · -- append branch
      have hany : acc.any (fun e => e.pmid = cur.pmid) = false :=
        Bool.eq_false_iff.mpr hdup
      have hnotin : cur.pmid ∉ acc.map fun e => e.pmid := by
        intro hmem
        rcases List.mem_map.mp hmem with ⟨a, ha, hpa⟩
        have := List.any_eq_false.mp hany a ha
        simp only [decide_eq_true_eq] at this
        exact this hpa
      have hnodup' : (((acc ++ [cur]).map fun e => e.pmid)).Nodup := by
        simp only [List.map_append, List.map_cons, List.map_nil]
        rw [List.nodup_append]
        refine ⟨hnodup, List.nodup_singleton _, ?_⟩
        intro x hx hx2
        simp only [List.mem_singleton] at hx2
        exact hnotin (hx2 ▸ hx)
      rcases ih (acc ++ [cur]) hnodup' hnetail with
        ⟨out, hgo, hnd, horig, hsrc, hcov, hcov'⟩
      refine ⟨out, ?_, hnd, ?_, ?_, ?_, ?_⟩
      · simp only [removeDuplicatePublicationsGo, if_neg hcur, hany,
          Bool.false_eq_true, if_false]
        exact hgo
      · intro e he
        rcases horig e he with h | h
        · simp only [List.map_append, List.mem_append, List.map_cons,
            List.mem_cons, List.map_nil, List.mem_singleton] at h
          rcases h with h | h
          · exact Or.inl h
          · rcases h with h | h
            · exact Or.inr (by simp [h])
            · simp at h
        · exact Or.inr (by simp only [List.map_cons, List.mem_cons]; exact Or.inr h)
      · intro e he s
        rw [hsrc e he s]
        constructor
        · rintro (⟨a, ha, hpm, hs⟩ | ⟨p, hp, hpm, hs⟩)
          · rcases List.mem_append.mp ha with h | h
            · exact Or.inl ⟨a, h, hpm, hs⟩
            · rw [List.mem_singleton.mp h] at hpm hs
              exact Or.inr ⟨cur, List.mem_cons_self cur rest', hpm, hs⟩
          · exact Or.inr ⟨p, List.mem_cons_of_mem cur hp, hpm, hs⟩
        · rintro (⟨a, ha, hpm, hs⟩ | ⟨p, hp, hpm, hs⟩)
          · exact Or.inl ⟨a, List.mem_append.mpr (Or.inl ha), hpm, hs⟩
          · rcases List.mem_cons.mp hp with rfl | hp
            · exact Or.inl ⟨p, List.mem_append.mpr (Or.inr (List.mem_singleton_self p)),
                hpm, hs⟩
            · exact Or.inr ⟨p, hp, hpm, hs⟩
      · intro a ha
        exact hcov a (List.mem_append.mpr (Or.inl ha))
      · intro p hp
        rcases List.mem_cons.mp hp with rfl | hp
        · exact hcov p (List.mem_append.mpr (Or.inr (List.mem_singleton_self p)))
        · exact hcov' p hp

/-! Section: Lemmas about the date-filter loops -/

theorem minDateFilterGo_spec {α : Type} (parse : String → Option Int) (cutoff : Int)
    (pubs : List (FPub α)) :
    (∀ p ∈ (minDateFilterGo parse cutoff pubs).1,
        jsTruthyOptStr p.publicationDate = false ∨
        ∃ s t, p.publicationDate = some s ∧ parse s = some t ∧ cutoff ≤ t) ∧
    (∀ p ∈ pubs, jsTruthyOptStr p.publicationDate = false →
        p ∈ (minDateFilterGo parse cutoff pubs).1) ∧
    (∀ p ∈ (minDateFilterGo parse cutoff pubs).2,
        ∃ s t, p.publicationDate = some s ∧ parse s = some t ∧ t < cutoff) := by
  induction pubs with
  | nil => exact ⟨by simp [minDateFilterGo], by simp, by simp [minDateFilterGo]⟩
  | cons p ps ih =>
    rcases ih with ⟨ihe, ihm, ihf⟩
    rcases hd : p.publicationDate with _ | s
    · refine ⟨?_, ?_, ?_⟩
      · intro q hq
        simp only [minDateFilterGo, hd, List.mem_cons] at hq
        rcases hq with rfl | hq
        · exact Or.inl (by simp [jsTruthyOptStr, hd])
        · exact ihe q hq
      · intro q hq hfal
        simp only [minDateFilterGo, hd, List.mem_cons]
        rcases List.mem_cons.mp hq with rfl | hq
        · exact Or.inl rfl
        · exact Or.inr (ihm q hq hfal)
      · intro q hq
        simp only [minDateFilterGo, hd] at hq
        exact ihf q hq
    · by_cases hs : s = ""
      · subst hs
        refine ⟨?_, ?_, ?_⟩
        · intro q hq
          simp only [minDateFilterGo, hd, if_pos rfl, if_true, List.mem_cons] at hq
          rcases hq with rfl | hq
          · exact Or.inl (by simp [jsTruthyOptStr, hd])
          · exact ihe q hq
        · intro q hq hfal
          simp only [minDateFilterGo, hd, if_pos rfl, if_true, List.mem_cons]
          rcases List.mem_cons.mp hq with rfl | hq
          · exact Or.inl rfl
          · exact Or.inr (ihm q hq hfal)
        · intro q hq
          simp only [minDateFilterGo, hd, if_pos rfl, if_true] at hq
          exact ihf q hq
      · rcases hp : parse s with _ | t
        · refine ⟨?_, ?_, ?_⟩
          · intro q hq
            simp only [minDateFilterGo, hd, if_neg hs, hp] at hq
            exact ihe q hq
          · intro q hq hfal
            simp only [minDateFilterGo, hd, if_neg hs, hp]
            rcases List.mem_cons.mp hq with rfl | hq
            · rw [hd] at hfal
              simp [jsTruthyOptStr, hs] at hfal
            · exact ihm q hq hfal
          · intro q hq
            simp only [minDateFilterGo, hd, if_neg hs, hp] at hq
            exact ihf q hq
        · by_cases hcl : cutoff ≤ t
          · refine ⟨?_, ?_, ?_⟩
            · intro q hq
              simp only [minDateFilterGo, hd, if_neg hs, hp, if_pos hcl,
                List.mem_cons] at hq
              rcases hq with rfl | hq
              · exact Or.inr ⟨s, t, hd, hp, hcl⟩
              · exact ihe q hq
            · intro q hq hfal
              simp only [minDateFilterGo, hd, if_neg hs, hp, if_pos hcl, List.mem_cons]
              rcases List.mem_cons.mp hq with rfl | hq
              · rw [hd] at hfal
                simp [jsTruthyOptStr, hs] at hfal
              · exact Or.inr (ihm q hq hfal)
            · intro q hq
              simp only [minDateFilterGo, hd, if_neg hs, hp, if_pos hcl] at hq
              exact ihf q hq
          · refine ⟨?_, ?_, ?_⟩
            · intro q hq
              simp only [minDateFilterGo, hd, if_neg hs, hp, if_neg hcl] at hq
              exact ihe q hq
            · intro q hq hfal
              simp only [minDateFilterGo, hd, if_neg hs, hp, if_neg hcl]
              rcases List.mem_cons.mp hq with rfl | hq
              · rw [hd] at hfal
                simp [jsTruthyOptStr, hs] at hfal
              · exact ihm q hq hfal
            · intro q hq
              simp only [minDateFilterGo, hd, if_neg hs, hp, if_neg hcl,
                List.mem_cons] at hq
              rcases hq with rfl | hq
              · exact ⟨s, t, hd, hp, by omega⟩
              · exact ihf q hq

theorem maxDateFilterGo_spec {α : Type} (parse : String → Option Int) (cutoff : Int)
    (pubs : List (FPub α)) :
    (∀ p ∈ (maxDateFilterGo parse cutoff pubs).1,
        jsTruthyOptStr p.publicationDate = false ∨
        ∃ s t, p.publicationDate = some s ∧ parse s = some t ∧ t < cutoff) ∧
    (∀ p ∈ pubs, jsTruthyOptStr p.publicationDate = false →
        p ∈ (maxDateFilterGo parse cutoff pubs).1) ∧
    (∀ p ∈ (maxDateFilterGo parse cutoff pubs).2,
        ∃ s t, p.publicationDate = some s ∧ parse s = some t ∧ cutoff ≤ t) := by
  induction pubs with
  | nil => exact ⟨by simp [maxDateFilterGo], by simp, by simp [maxDateFilterGo]⟩
  | cons p ps ih =>
    rcases ih with ⟨ihe, ihm, ihf⟩
    rcases hd : p.publicationDate with _ | s
    · refine ⟨?_, ?_, ?_⟩
      · intro q hq
        simp only [maxDateFilterGo, hd, List.mem_cons] at hq
        rcases hq with rfl | hq
        · exact Or.inl (by simp [jsTruthyOptStr, hd])
        · exact ihe q hq
      · intro q hq hfal
        simp only [maxDateFilterGo, hd, List.mem_cons]
        rcases List.mem_cons.mp hq with rfl | hq
        · exact Or.inl rfl
        · exact Or.inr (ihm q hq hfal)
      · intro q hq
        simp only [maxDateFilterGo, hd] at hq
        exact ihf q hq
    · by_cases hs : s = ""
      · subst hs
        refine ⟨?_, ?_, ?_⟩
        · intro q hq
          simp only [maxDateFilterGo, hd, if_pos rfl, if_true, List.mem_cons] at hq
          rcases hq with rfl | hq
          · exact Or.inl (by simp [jsTruthyOptStr, hd])
          · exact ihe q hq
        · intro q hq hfal
          simp only [maxDateFilterGo, hd, if_pos rfl, if_true, List.mem_cons]
          rcases List.mem_cons.mp hq with rfl | hq
          · exact Or.inl rfl
          · exact Or.inr (ihm q hq hfal)
        · intro q hq
          simp only [maxDateFilterGo, hd, if_pos rfl, if_true] at hq
          exact ihf q hq
      · rcases hp : parse s with _ | t
        · refine ⟨?_, ?_, ?_⟩
          · intro q hq
            simp only [maxDateFilterGo, hd, if_neg hs, hp] at hq
            exact ihe q hq
          · intro q hq hfal
            simp only [maxDateFilterGo, hd, if_neg hs, hp]
            rcases List.mem_cons.mp hq with rfl | hq
            · rw [hd] at hfal
              simp [jsTruthyOptStr, hs] at hfal
            · exact ihm q hq hfal
          · intro q hq
            simp only [maxDateFilterGo, hd, if_neg hs, hp] at hq
            exact ihf q hq
        · by_cases hcl : t < cutoff
          · refine ⟨?_, ?_, ?_⟩
            · intro q hq
              simp only [maxDateFilterGo, hd, if_neg hs, hp, if_pos hcl,
                List.mem_cons] at hq
              rcases hq with rfl | hq
              · exact Or.inr ⟨s, t, hd, hp, hcl⟩
              · exact ihe q hq
            · intro q hq hfal
              simp only [maxDateFilterGo, hd, if_neg hs, hp, if_pos hcl, List.mem_cons]
              rcases List.mem_cons.mp hq with rfl | hq
              · rw [hd] at hfal
                simp [jsTruthyOptStr, hs] at hfal
              · exact Or.inr (ihm q hq hfal)
            · intro q hq
              simp only [maxDateFilterGo, hd, if_neg hs, hp, if_pos hcl] at hq
              exact ihf q hq
          · refine ⟨?_, ?_, ?_⟩
            · intro q hq
              simp only [maxDateFilterGo, hd, if_neg hs, hp, if_neg hcl] at hq
              exact ihe q hq
            · intro q hq hfal
              simp only [maxDateFilterGo, hd, if_neg hs, hp, if_neg hcl]
              rcases List.mem_cons.mp hq with rfl | hq
              · rw [hd] at hfal
                simp [jsTruthyOptStr, hs] at hfal
              · exact ihm q hq hfal
            · intro q hq
              simp only [maxDateFilterGo, hd, if_neg hs, hp, if_neg hcl,
                List.mem_cons] at hq
              rcases hq with rfl | hq
              · exact ⟨s, t, hd, hp, by omega⟩
              · exact ihf q hq

/-! Section: Claim theorems -/

/-- C6: for every list of publications in which each entry has a (truthy)
pmid, `removeDuplicatePublications` succeeds; every input PMID occurs in the
output, PMIDs of the output are pairwise distinct, the `sources` of each
output entry are exactly the set-union of the `sources` of all input entries
sharing that PMID, and the function is idempotent on its own output. -/
theorem removeDuplicatePublications_spec {α : Type} (pubs : List (DPub α))
    (hpm : ∀ p ∈ pubs, p.pmid ≠ "") :
    ∃ out, removeDuplicatePublications pubs = .ok out ∧
      ((out.map fun e => e.pmid)).Nodup ∧
      (∀ p ∈ pubs, ∃ e ∈ out, e.pmid = p.pmid) ∧
      (∀ e ∈ out, ∃ p ∈ pubs, p.pmid = e.pmid) ∧
      (∀ e ∈ out, ∀ s, s ∈ e.sources ↔ ∃ p ∈ pubs, p.pmid = e.pmid ∧ s ∈ p.sources) ∧
      removeDuplicatePublications out = .ok out := by
  rcases removeDuplicatePublicationsGo_spec pubs [] (by simp) hpm with
    ⟨out, hgo, hnd, horig, hsrc, _, hcov'⟩
  have horig' : ∀ e ∈ out, ∃ p ∈ pubs, p.pmid = e.pmid := by
    intro e he
    rcases horig e he with h | h
    · simp at h
    · rcases List.mem_map.mp h with ⟨p, hp, hpe⟩
      exact ⟨p, hp, hpe⟩
  refine ⟨out, hgo, hnd, hcov', horig', ?_, ?_⟩
  · intro e he s
    rw [hsrc e he s]
    simp
  · have hne : ∀ e ∈ out, e.pmid ≠ "" := by
      intro e he
      rcases horig' e he with ⟨p, hp, hpe⟩
      rw [← hpe]
      exact hpm p hp
    have := removeDuplicatePublicationsGo_id out [] (by simpa using hnd) hne
    simpa [removeDuplicatePublications] using this

/-- C6 witness: the theorem applied to a concrete three-element input in
which PMID 222 occurs twice with different sources. -/
theorem removeDuplicatePublications_spec_witness :
    (∀ p ∈ [({ pmid := "222", sources := ["a"], rest := () } : DPub Unit),
            { pmid := "333", sources := ["b"], rest := () },
            { pmid := "222", sources := ["c"], rest := () }], p.pmid ≠ "") ∧
    (∃ out, removeDuplicatePublications
        [({ pmid := "222", sources := ["a"], rest := () } : DPub Unit),
         { pmid := "333", sources := ["b"], rest := () },
         { pmid := "222", sources := ["c"], rest := () }] = .ok out ∧
      ((out.map fun e => e.pmid)).Nodup ∧
      (∀ p ∈ [({ pmid := "222", sources := ["a"], rest := () } : DPub Unit),
              { pmid := "333", sources := ["b"], rest := () },
              { pmid := "222", sources := ["c"], rest := () }],
        ∃ e ∈ out, e.pmid = p.pmid) ∧
      (∀ e ∈ out, ∃ p ∈ [({ pmid := "222", sources := ["a"], rest := () } : DPub Unit),
              { pmid := "333", sources := ["b"], rest := () },
              { pmid := "222", sources := ["c"], rest := () }], p.pmid = e.pmid) ∧
      (∀ e ∈ out, ∀ s, s ∈ e.sources ↔
        ∃ p ∈ [({ pmid := "222", sources := ["a"], rest := () } : DPub Unit),
               { pmid := "333", sources := ["b"], rest := () },
               { pmid := "222", sources := ["c"], rest := () }],
          p.pmid = e.pmid ∧ s ∈ p.sources) ∧
      removeDuplicatePublications out = .ok out) :=
  ⟨by decide, removeDuplicatePublications_spec _ (by decide)⟩

/-- C7: for every publication list and every valid (parseable, non-empty)
minimum date, `minDateFilter` returns `{eligible, filtered}` without raising;
no eligible publication has a date that parses strictly earlier than the
cutoff, and every publication with a missing (falsy) date is eligible.
`hinv` records that the empty string is not a valid date (`new Date("")` is
an Invalid Date). -/
theorem minDateFilter_spec {α : Type} (parse : String → Option Int)
    (pubs : List (FPub α)) (minDate : String) (cutoff : Int)
    (hne : minDate ≠ "") (hparse : parse minDate = some cutoff)
    (hinv : parse "" = none) :
    ∃ ef, minDateFilter parse pubs minDate = .ok ef ∧
      (∀ p ∈ ef.1, ∀ s t, p.publicationDate = some s → parse s = some t → cutoff ≤ t) ∧
      (∀ p ∈ pubs, jsTruthyOptStr p.publicationDate = false → p ∈ ef.1) := by
  refine ⟨minDateFilterGo parse cutoff pubs, ?_, ?_, ?_⟩
  · simp [minDateFilter, if_neg hne, hparse]
  · intro p hp s t hd hps
    rcases (minDateFilterGo_spec parse cutoff pubs).1 p hp with h | ⟨s', t', hd', hp', hc'⟩
    · rw [hd] at h
      simp only [jsTruthyOptStr, Bool.not_eq_false'] at h
      have hs0 : s = "" := of_decide_eq_true h
      rw [hs0, hinv] at hps
      exact absurd hps (by simp)
    · rw [hd] at hd'
      have hss : s = s' := Option.some_injective _ hd'
      subst hss
      rw [hps] at hp'
      have htt : t = t' := Option.some_injective _ hp'
      rw [htt]
      exact hc'
  · exact (minDateFilterGo_spec parse cutoff pubs).2.1

/-- C7 witness: the spec's scenario 3 — `startDate = 2010-01-01`, candidates
dated 2009-12, 2012 and undated. -/
theorem minDateFilter_spec_witness :
    (("2010-01-01" : String) ≠ "" ∧ jsDateParse "2010-01-01" = some 20100101 ∧
      jsDateParse "" = none) ∧
    (∃ ef, minDateFilter jsDateParse
        [({ publicationDate := some "2009-12", rest := 0 } : FPub Nat),
         { publicationDate := some "2012", rest := 1 },
         { publicationDate := none, rest := 2 }] "2010-01-01" = .ok ef ∧
      (∀ p ∈ ef.1, ∀ s t, p.publicationDate = some s → jsDateParse s = some t →
        20100101 ≤ t) ∧
      (∀ p ∈ [({ publicationDate := some "2009-12", rest := 0 } : FPub Nat),
              { publicationDate := some "2012", rest := 1 },
              { publicationDate := none, rest := 2 }],
        jsTruthyOptStr p.publicationDate = false → p ∈ ef.1)) :=
  ⟨⟨by decide, by decide, by decide⟩,
    minDateFilter_spec jsDateParse _ _ _ (by decide) (by decide) (by decide)⟩

/-- C8 counterexample: a publication whose `publicationDate` is the non-empty
unparseable string `"not-a-date"` does not survive `minDateFilter` — both the
`eligible` and the `filtered` output are empty, refuting the claim that
`minDateFilter` retains it in `eligible`. -/
theorem minDateFilter_invalid_counterexample :
    minDateFilter jsDateParse
      [({ publicationDate := some "not-a-date", rest := 0 } : FPub Nat)]
      "2020-01-01" = .ok ([], []) ∧
    maxDateFilter jsDateParse
      [({ publicationDate := some "not-a-date", rest := 0 } : FPub Nat)]
      "2020-01-01" = .ok ([], []) :=
  ⟨rfl, rfl⟩

/-- C8 (amended): a publication whose `publicationDate` is a non-empty string
that does not parse appears in neither output of `maxDateFilter` nor of
`minDateFilter` — both filters silently drop it. -/
theorem dateFilters_drop_unparseable {α : Type} (parse : String → Option Int)
    (pubs : List (FPub α)) (maxDate minDate : String)
    (e1 f1 e2 f2 : List (FPub α))
    (h1 : maxDateFilter parse pubs maxDate = .ok (e1, f1))
    (h2 : minDateFilter parse pubs minDate = .ok (e2, f2))
    (p : FPub α) (s : String) (hd : p.publicationDate = some s) (hs : s ≠ "")
    (hp : parse s = none) :
    p ∉ e1 ∧ p ∉ f1 ∧ p ∉ e2 ∧ p ∉ f2 := by
  by_cases hm0 : maxDate = ""
  · rw [hm0] at h1
    simp [maxDateFilter] at h1
  obtain ⟨cmax, hcmax⟩ : ∃ c, parse maxDate = some c := by
    rcases hpm : parse maxDate with _ | c
    · rw [maxDateFilter, if_neg hm0, hpm] at h1
      exact absurd h1 (by simp)
    · exact ⟨c, rfl⟩
  by_cases hn0 : minDate = ""
  · rw [hn0] at h2
    simp [minDateFilter] at h2
  obtain ⟨cmin, hcmin⟩ : ∃ c, parse minDate = some c := by
    rcases hpn : parse minDate with _ | c
    · rw [minDateFilter, if_neg hn0, hpn] at h2
      exact absurd h2 (by simp)
    · exact ⟨c, rfl⟩
  rw [maxDateFilter, if_neg hm0, hcmax] at h1
  rw [minDateFilter, if_neg hn0, hcmin] at h2
  have he1 : e1 = (maxDateFilterGo parse cmax pubs).1 := by
    have := congrArg (fun x => match x with | Except.ok v => v.1 | _ => e1) h1.symm
    simpa using this
  have hf1 : f1 = (maxDateFilterGo parse cmax pubs).2 := by
    have := congrArg (fun x => match x with | Except.ok v => v.2 | _ => f1) h1.symm
    simpa using this
  have he2 : e2 = (minDateFilterGo parse cmin pubs).1 := by
    have := congrArg (fun x => match x with | Except.ok v => v.1 | _ => e2) h2.symm
    simpa using this
  have hf2 : f2 = (minDateFilterGo parse cmin pubs).2 := by
    have := congrArg (fun x => match x with | Except.ok v => v.2 | _ => f2) h2.symm
    simpa using this
  have htruthy : jsTruthyOptStr p.publicationDate = true := by
    rw [hd]
    simpa [jsTruthyOptStr] using hs
  refine ⟨?_, ?_, ?_, ?_⟩
  · intro hmem
    rw [he1] at hmem
    rcases (maxDateFilterGo_spec parse cmax pubs).1 p hmem with h | ⟨s', t', hd', hp', _⟩
    · rw [htruthy] at h
      exact absurd h (by simp)
    · rw [hd] at hd'
      have := Option.some_injective _ hd'
      rw [← this] at hp'
      rw [hp] at hp'
      exact absurd hp' (by simp)
  · intro hmem
    rw [hf1] at hmem
    rcases (maxDateFilterGo_spec parse cmax pubs).2.2 p hmem with ⟨s', t', hd', hp', _⟩
    rw [hd] at hd'
    have := Option.some_injective _ hd'
    rw [← this] at hp'
    rw [hp] at hp'
    exact absurd hp' (by simp)
  · intro hmem
    rw [he2] at hmem
    rcases (minDateFilterGo_spec parse cmin pubs).1 p hmem with h | ⟨s', t', hd', hp', _⟩
    · rw [htruthy] at h
      exact absurd h (by simp)
    · rw [hd] at hd'
      have := Option.some_injective _ hd'
      rw [← this] at hp'
      rw [hp] at hp'
      exact absurd hp' (by simp)
  · intro hmem
    rw [hf2] at hmem
    rcases (minDateFilterGo_spec parse cmin pubs).2.2 p hmem with ⟨s', t', hd', hp', _⟩
    rw [hd] at hd'
    have := Option.some_injective _ hd'
    rw [← this] at hp'
    rw [hp] at hp'
    exact absurd hp' (by simp)

/-- C8 witness: the amended theorem applied to a concrete run with one valid
and one unparseable date. -/
theorem dateFilters_drop_unparseable_witness :
    (maxDateFilter jsDateParse
        [({ publicationDate := some "garbage", rest := 0 } : FPub Nat),
         { publicationDate := some "2019-05-05", rest := 1 }] "2023-02-15" =
      .ok ([{ publicationDate := some "2019-05-05", rest := 1 }], []) ∧
     minDateFilter jsDateParse
        [({ publicationDate := some "garbage", rest := 0 } : FPub Nat),
         { publicationDate := some "2019-05-05", rest := 1 }] "2010-01-01" =
      .ok ([{ publicationDate := some "2019-05-05", rest := 1 }], []) ∧
     ({ publicationDate := some "garbage", rest := 0 } : FPub Nat).publicationDate =
       some "garbage" ∧ ("garbage" : String) ≠ "" ∧ jsDateParse "garbage" = none) ∧
    (({ publicationDate := some "garbage", rest := 0 } : FPub Nat) ∉
        [({ publicationDate := some "2019-05-05", rest := 1 } : FPub Nat)] ∧
      ({ publicationDate := some "garbage", rest := 0 } : FPub Nat) ∉ ([] : List (FPub Nat)) ∧
      ({ publicationDate := some "garbage", rest := 0 } : FPub Nat) ∉
        [({ publicationDate := some "2019-05-05", rest := 1 } : FPub Nat)] ∧
      ({ publicationDate := some "garbage", rest := 0 } : FPub Nat) ∉ ([] : List (FPub Nat))) :=
  ⟨⟨rfl, rfl, by decide, by decide, by decide⟩,
    dateFilters_drop_unparseable jsDateParse
      [({ publicationDate := some "garbage", rest := 0 } : FPub Nat),
       { publicationDate := some "2019-05-05", rest := 1 }]
      "2023-02-15" "2010-01-01"
      [({ publicationDate := some "2019-05-05", rest := 1 } : FPub Nat)] []
      [({ publicationDate := some "2019-05-05", rest := 1 } : FPub Nat)] []
      rfl rfl
      ({ publicationDate := some "garbage", rest := 0 } : FPub Nat) "garbage"
      (by decide) (by decide) (by decide)⟩

/-- C10 counterexample: a progress file that parses but whose `input` field is
missing (hence does not match the current input path) is resumed — the loaded
Progress keeps the stored stage `FINALIZE` and batch jobs instead of being the
fresh `PREP` Progress the claim demands for every non-matching case. -/
theorem loadProgress_missing_input_counterexample :
    progressJsonNoInput.input ≠ some "input.csv" ∧
    loadProgress (.parsed progressJsonNoInput) "input.csv" "2024-02-02" ≠
      freshProgress "input.csv" "2024-02-02" ∧
    (loadProgress (.parsed progressJsonNoInput) "input.csv" "2024-02-02").stage =
      "FINALIZE" := by
  refine ⟨by decide, ?_, by decide⟩
  intro h
  have := congrArg (fun pr => pr.stage) h
  simp [loadProgress, jsTruthyOptStr, jsOrElseStr, freshProgress,
    progressJsonNoInput] at this

/-- C10 (amended): `loadProgress` returns a fresh Progress when the file is
absent, unparseable, or stores a truthy `input` different from the current
input path; when the stored `input` is missing, empty, or equal to the
current path, the stored run is resumed with per-field defaults (so a
progress file without an `input` field is resumed, not discarded). -/
theorem loadProgress_spec (file : ProgressFileRead) (inputPath now : String) :
    (file = .absent → loadProgress file inputPath now = freshProgress inputPath now) ∧
    (file = .unparseable → loadProgress file inputPath now = freshProgress inputPath now) ∧
    (∀ p, file = .parsed p → jsTruthyOptStr p.input = true → p.input ≠ some inputPath →
      loadProgress file inputPath now = freshProgress inputPath now) ∧
    (∀ p, file = .parsed p → (jsTruthyOptStr p.input = false ∨ p.input = some inputPath) →
      loadProgress file inputPath now =
        { input := inputPath
          stage := jsOrElseStr p.stage "PREP"
          batchJobs := p.batchJobs.getD []
          rows := p.rows.getD []
          registrations := p.registrations.getD []
          publications := p.publications.getD []
          skippedNoTrialId := (p.skippedCounts.getD (0, 0)).1
          skippedNoRegistration := (p.skippedCounts.getD (0, 0)).2
          startedAt := jsOrElseStr p.startedAt now }) := by
  refine ⟨?_, ?_, ?_, ?_⟩
  · rintro rfl
    rfl
  · rintro rfl
    rfl
  · rintro p rfl htruthy hneq
    simp only [loadProgress]
    rw [if_pos ⟨htruthy, hneq⟩]
  · rintro p rfl hcase
    simp only [loadProgress]
    rw [if_neg ?_]
    rintro ⟨htruthy, hneq⟩
    rcases hcase with h | h
    · rw [htruthy] at h
      exact absurd h (by simp)
    · exact hneq h

/-- C10 witness: the amended theorem applied to a parsed file whose `input`
matches the current path, resuming at the stored stage. -/
theorem loadProgress_spec_witness :
    ((jsTruthyOptStr progressJsonMatching.input = false ∨
      progressJsonMatching.input = some "data.csv") ∧
    loadProgress (.parsed progressJsonMatching) "data.csv" "now" =
      { input := "data.csv", stage := "PUB_DISCOVERY", batchJobs := [], rows := [],
        registrations := [], publications := [], skippedNoTrialId := 3,
        skippedNoRegistration := 1, startedAt := "t0" }) :=
  ⟨Or.inr rfl,
    ((loadProgress_spec (.parsed progressJsonMatching) "data.csv" "now").2.2.2
      progressJsonMatching rfl (Or.inr rfl)).trans (by decide)⟩

/-- C2 counterexample: with `maxBytesPerBatch = 5`, `safetyBuffer = 1` (so the
effective cap is `floor(5 * 1) = 5`) and a single request of 6 serialized
bytes, RESULT_GEN_PREPARATION writes a chunk whose `sizeBytes` is `6 > 5`:
the claimed invariant fails. -/
theorem chunk_size_counterexample :
    effectiveMaxBytesOf 5 1 = 5 ∧
    ∃ m ∈ chunkMetas (stageResultGenPreparationChunks 10 5 [{ tokens := 1, bytes := 6 }]),
      5 < m.sizeBytes := by
  constructor
  · simp [effectiveMaxBytesOf]
  · decide

/-- C2 (amended): every chunk written by RESULT_GEN_PREPARATION satisfies
`requestCount ≤ maxRequestsPerBatch` and
`sizeBytes ≤ floor(maxBytesPerBatch * safetyBuffer)` provided
`maxRequestsPerBatch ≥ 1` and no single request's serialized bytes exceed the
effective cap; a single oversized request instead yields a chunk above the
cap (see the counterexample). -/
theorem stageResultGenPreparation_chunk_bounds
    (maxRequestsPerBatch maxBytesPerBatch : Nat) (safetyBuffer : ℚ)
    (effBytes : Nat) (reqs : List BReq)
    (hcap : (effBytes : ℤ) = effectiveMaxBytesOf maxBytesPerBatch safetyBuffer)
    (hmax : 1 ≤ maxRequestsPerBatch)
    (hfit : ∀ r ∈ reqs, r.bytes ≤ effBytes) :
    ∀ m ∈ chunkMetas (stageResultGenPreparationChunks maxRequestsPerBatch effBytes reqs),
      m.requestCount ≤ maxRequestsPerBatch ∧ m.sizeBytes ≤ effBytes := by
  intro m hm
  rcases List.mem_map.mp hm with ⟨c, hc, rfl⟩
  exact packGo_bounded maxRequestsPerBatch effBytes hmax reqs [] _ hfit
    (by simp) (by simp) (by simp) c hc

/-- C2 witness: two 3-byte requests against a cap of `floor(5 * 1) = 5` split
into two single-request chunks, both within bounds. -/
theorem stageResultGenPreparation_chunk_bounds_witness :
    (((5 : Nat) : ℤ) = effectiveMaxBytesOf 5 1 ∧ 1 ≤ 10 ∧
      (∀ r ∈ [({ tokens := 1, bytes := 3 } : BReq), { tokens := 1, bytes := 3 }],
        r.bytes ≤ 5)) ∧
    (∀ m ∈ chunkMetas (stageResultGenPreparationChunks 10 5
        [({ tokens := 1, bytes := 3 } : BReq), { tokens := 1, bytes := 3 }]),
      m.requestCount ≤ 10 ∧ m.sizeBytes ≤ 5) :=
  ⟨⟨by simp [effectiveMaxBytesOf], by decide, by decide⟩,
    stageResultGenPreparation_chunk_bounds 10 5 1 5 _
      (by simp [effectiveMaxBytesOf]) (by decide) (by decide)⟩

/-- C3 counterexample: a single request of 9 bytes against an effective cap of
`floor(8 * 1) = 8` raises no error at all — RESULT_GEN_PREPARATION seals the
(empty) first chunk and writes the oversized request into chunk 1 with
`sizeBytes = 9 > 8`, the very "silently oversized chunk" the claim rules
out. -/
theorem oversized_request_counterexample :
    effectiveMaxBytesOf 8 1 = 8 ∧
    chunkMetas (stageResultGenPreparationChunks 50 8 [{ tokens := 2, bytes := 9 }]) =
      [{ index := 0, requestCount := 0, estimatedTokens := 0, sizeBytes := 0,
         status := .pending },
       { index := 1, requestCount := 1, estimatedTokens := 2, sizeBytes := 9,
         status := .pending }] :=
  ⟨by simp [effectiveMaxBytesOf], by decide⟩

/-- C3 (amended): the packing stage has no error path; a classification
request whose serialized bytes exceed the effective cap
`floor(maxBytesPerBatch * safetyBuffer)` is written into a chunk whose
`sizeBytes` exceeds the cap. -/
theorem oversized_request_spec
    (maxRequestsPerBatch maxBytesPerBatch : Nat) (safetyBuffer : ℚ)
    (effBytes : Nat) (reqs : List BReq) (r : BReq)
    (hcap : (effBytes : ℤ) = effectiveMaxBytesOf maxBytesPerBatch safetyBuffer)
    (hr : r ∈ reqs) (hbig : effBytes < r.bytes) :
    ∃ c ∈ stageResultGenPreparationChunks maxRequestsPerBatch effBytes reqs,
      r ∈ c.requests ∧ effBytes < c.bytes := by
  rcases packGo_mem_rest maxRequestsPerBatch effBytes reqs []
    { index := 0, requests := [], tokens := 0, bytes := 0 } r hr with ⟨c, hc, hrc⟩
  have hsum := packGo_bytes_sum maxRequestsPerBatch effBytes reqs []
    { index := 0, requests := [], tokens := 0, bytes := 0 }
    (by simp) (by simp [sumBytes]) c hc
  refine ⟨c, hc, hrc, ?_⟩
  have hle : r.bytes ≤ sumBytes c.requests := by
    have := List.single_le_sum (l := c.requests.map fun q => q.bytes)
      (fun x _ => Nat.zero_le x) r.bytes (List.mem_map_of_mem _ hrc)
    simpa [sumBytes] using this
  omega

/-- C3 witness: the amended theorem applied to the 9-byte request against the
cap `floor(8 * 1) = 8`. -/
theorem oversized_request_spec_witness :
    ((((8 : Nat) : ℤ) = effectiveMaxBytesOf 8 1 ∧
      ({ tokens := 2, bytes := 9 } : BReq) ∈ [({ tokens := 2, bytes := 9 } : BReq)] ∧
      8 < ({ tokens := 2, bytes := 9 } : BReq).bytes) ∧
    ∃ c ∈ stageResultGenPreparationChunks 50 8 [({ tokens := 2, bytes := 9 } : BReq)],
      ({ tokens := 2, bytes := 9 } : BReq) ∈ c.requests ∧ 8 < c.bytes) :=
  ⟨⟨by simp [effectiveMaxBytesOf], by decide, by decide⟩,
    oversized_request_spec 50 8 1 8 [({ tokens := 2, bytes := 9 } : BReq)]
      ({ tokens := 2, bytes := 9 } : BReq) (by simp [effectiveMaxBytesOf])
      (by decide) (by decide)⟩

/-- C1: RESULT_GEN_UPLOAD uploads exactly the largest prefix of the
index-sorted pending chunks whose summed `estimatedTokens` fits the remaining
daily budget `maxTokensPerDay - dailyTokensUsed.tokens` (after the new-day
reset): the selection is a prefix of the pending list, a prefix fits the
budget iff it is contained in the selection, the stage throws the
daily-budget error iff the selection is empty while pending chunks remain,
each selected chunk becomes `uploaded` and its `estimatedTokens` are added to
`dailyTokensUsed.tokens`, and consequently a daily total that starts within
`maxTokensPerDay` stays within it. -/
theorem stageResultGenUpload_spec (maxTokensPerDay : Int) (today : String)
    (rd : ResultDetectionState)
    (hnn : ∀ c ∈ rd.chunks, 0 ≤ c.estimatedTokens) :
    (uploadSelected maxTokensPerDay today rd =
      (uploadPending rd).take (uploadSelected maxTokensPerDay today rd).length) ∧
    (∀ n, 0 < n → n ≤ (uploadPending rd).length →
      (sumTokens ((uploadPending rd).take n) ≤
          maxTokensPerDay - (uploadDtu today rd).tokens ↔
        n ≤ (uploadSelected maxTokensPerDay today rd).length)) ∧
    (stageResultGenUpload maxTokensPerDay today rd = .error "Daily token quota exhausted" ↔
      uploadPending rd ≠ [] ∧ uploadSelected maxTokensPerDay today rd = []) ∧
    (∀ out, stageResultGenUpload maxTokensPerDay today rd = .ok out →
      out.stage = Stage.RESULT_GEN_POLL ∧
      out.state.dailyTokensUsed.date = (uploadDtu today rd).date ∧
      out.state.dailyTokensUsed.tokens =
        (uploadDtu today rd).tokens + sumTokens (uploadSelected maxTokensPerDay today rd) ∧
      out.state.chunks = rd.chunks.map (fun c =>
        if c.status = ChunkStatus.pending ∧
            c.index ∈ (uploadSelected maxTokensPerDay today rd).map (fun c2 => c2.index) then
          { c with status := ChunkStatus.uploaded }
        else c) ∧
      (0 ≤ (uploadDtu today rd).tokens → (uploadDtu today rd).tokens ≤ maxTokensPerDay →
        out.state.dailyTokensUsed.tokens ≤ maxTokensPerDay)) := by
  have hpnn : ∀ c ∈ uploadPending rd, 0 ≤ c.estimatedTokens := by
    intro c hc
    have hc2 := (jsSort_mem chunkIndexLe _ c).mp hc
    exact hnn c (List.mem_filter.mp hc2).1
  have htake : uploadSelected maxTokensPerDay today rd =
      (uploadPending rd).take (uploadSelected maxTokensPerDay today rd).length :=
    greedySelect_take _ _
  have hiff := greedySelect_spec (maxTokensPerDay - (uploadDtu today rd).tokens)
    (uploadPending rd) hpnn
  refine ⟨htake, hiff, ?_, ?_⟩
  · by_cases hpe : (uploadPending rd).isEmpty
    · constructor
      · intro h
        rw [stageResultGenUpload, if_pos hpe] at h
        exact absurd h (by simp)
      · rintro ⟨hne, _⟩
        exact absurd (List.isEmpty_iff.mp hpe) hne
    · by_cases hse : (uploadSelected maxTokensPerDay today rd).isEmpty
      · constructor
        · intro _
          exact ⟨fun h => hpe (by rw [h]; rfl), List.isEmpty_iff.mp hse⟩
        · intro _
          rw [stageResultGenUpload, if_neg hpe, if_pos hse]
      · constructor
        · intro h
          rw [stageResultGenUpload, if_neg hpe, if_neg hse] at h
          exact absurd h (by simp)
        · rintro ⟨_, hsel⟩
          exact absurd (by rw [hsel]; rfl) hse
  · intro out hout
    by_cases hpe : (uploadPending rd).isEmpty
    · rw [stageResultGenUpload, if_pos hpe] at hout
      have hsel0 : uploadSelected maxTokensPerDay today rd = [] := by
        rw [uploadSelected, List.isEmpty_iff.mp hpe]
        rfl
      injection hout with hh
      subst hh
      refine ⟨rfl, rfl, ?_, ?_, ?_⟩
      · show (uploadDtu today rd).tokens =
          (uploadDtu today rd).tokens + sumTokens (uploadSelected maxTokensPerDay today rd)
        rw [hsel0, sumTokens_nil, add_zero]
      · show rd.chunks = rd.chunks.map (fun c =>
          if c.status = ChunkStatus.pending ∧
              c.index ∈ (uploadSelected maxTokensPerDay today rd).map (fun c2 => c2.index) then
            { c with status := ChunkStatus.uploaded }
          else c)
        rw [hsel0]
        have hcongr : ∀ c ∈ rd.chunks,
            (if c.status = ChunkStatus.pending ∧
                c.index ∈ ([] : List UChunk).map (fun c2 => c2.index) then
              { c with status := ChunkStatus.uploaded }
            else c) = c := by
          intro c _
          rw [if_neg]
          rintro ⟨_, hmem⟩
          simp at hmem
        rw [List.map_congr_left hcongr, List.map_id']
      · intro _ h2
        show (uploadDtu today rd).tokens ≤ maxTokensPerDay
        exact h2
    · by_cases hse : (uploadSelected maxTokensPerDay today rd).isEmpty
      · rw [stageResultGenUpload, if_neg hpe, if_pos hse] at hout
        exact absurd hout (by simp)
      · rw [stageResultGenUpload, if_neg hpe, if_neg hse] at hout
        injection hout with hh
        subst hh
        refine ⟨rfl, rfl, rfl, rfl, ?_⟩
        intro h1 h2
        have hk : 0 < (uploadSelected maxTokensPerDay today rd).length := by
          rcases hsel : uploadSelected maxTokensPerDay today rd with _ | ⟨c, cs⟩
          · rw [hsel] at hse
            exact absurd rfl hse
          · simp
        have hklen : (uploadSelected maxTokensPerDay today rd).length ≤
            (uploadPending rd).length := by
          conv_lhs => rw [htake]
          simp
        have hsum := (hiff _ hk hklen).mpr (le_refl _)
        rw [← htake] at hsum
        show (uploadDtu today rd).tokens +
          sumTokens (uploadSelected maxTokensPerDay today rd) ≤ maxTokensPerDay
        omega

/-- C1 witness: the daily-budget scenario — `maxTokensPerDay = 100`, three
pending chunks of 60 tokens each on a new day.  Exactly the first chunk is
selected and uploaded, and the daily counter rises to 60 ≤ 100. -/
theorem stageResultGenUpload_spec_witness :
    (∀ c ∈ uploadFixture.chunks, 0 ≤ c.estimatedTokens) ∧
    ((uploadSelected 100 "2024-03-02" uploadFixture =
      (uploadPending uploadFixture).take
        (uploadSelected 100 "2024-03-02" uploadFixture).length) ∧
    (∀ n, 0 < n → n ≤ (uploadPending uploadFixture).length →
      (sumTokens ((uploadPending uploadFixture).take n) ≤
          100 - (uploadDtu "2024-03-02" uploadFixture).tokens ↔
        n ≤ (uploadSelected 100 "2024-03-02" uploadFixture).length)) ∧
    (stageResultGenUpload 100 "2024-03-02" uploadFixture =
        .error "Daily token quota exhausted" ↔
      uploadPending uploadFixture ≠ [] ∧
        uploadSelected 100 "2024-03-02" uploadFixture = []) ∧
    (∀ out, stageResultGenUpload 100 "2024-03-02" uploadFixture = .ok out →
      out.stage = Stage.RESULT_GEN_POLL ∧
      out.state.dailyTokensUsed.date = (uploadDtu "2024-03-02" uploadFixture).date ∧
      out.state.dailyTokensUsed.tokens =
        (uploadDtu "2024-03-02" uploadFixture).tokens +
          sumTokens (uploadSelected 100 "2024-03-02" uploadFixture) ∧
      out.state.chunks = uploadFixture.chunks.map (fun c =>
        if c.status = ChunkStatus.pending ∧
            c.index ∈ (uploadSelected 100 "2024-03-02" uploadFixture).map
              (fun c2 => c2.index) then
          { c with status := ChunkStatus.uploaded }
        else c) ∧
      (0 ≤ (uploadDtu "2024-03-02" uploadFixture).tokens →
        (uploadDtu "2024-03-02" uploadFixture).tokens ≤ 100 →
        out.state.dailyTokensUsed.tokens ≤ 100))) :=
  ⟨by decide, stageResultGenUpload_spec 100 "2024-03-02" uploadFixture (by decide)⟩

/-- C4: in every trial summary of FINALIZE, `tool_results = true` implies
`tool_result_pmids` is non-empty; every PMID in `tool_result_pmids` also
appears in `tool_prompted_pmids`; and `tool_ident_steps` holds exactly the
set-union of `sources` over the positively classified publications (strategy
identifiers are non-empty strings, hypothesis `hsrc`). -/
theorem stageFinalizeTrial_invariants (trialId : String) (pubs : List FinPub)
    (pubErrors : List PubDiscoveryError) (lookup : String → ResultFileState)
    (hsrc : ∀ p ∈ pubs, ∀ s ∈ p.sources, s ≠ "") :
    ((stageFinalizeTrial trialId pubs pubErrors lookup).1.tool_results = true →
      (stageFinalizeTrial trialId pubs pubErrors lookup).1.tool_result_pmids ≠ []) ∧
    (∀ pm ∈ (stageFinalizeTrial trialId pubs pubErrors lookup).1.tool_result_pmids,
      pm ∈ (stageFinalizeTrial trialId pubs pubErrors lookup).1.tool_prompted_pmids) ∧
    (∀ s, s ∈ (stageFinalizeTrial trialId pubs pubErrors lookup).1.tool_ident_steps ↔
      ∃ r ∈ (stageFinalizeTrial trialId pubs pubErrors lookup).2,
        r.hasResults = true ∧ s ∈ r.sources) := by
  have hdet : ∀ r ∈ finalizeDetRes pubs lookup,
      ∃ p ∈ pubs, ¬ p.pmid = "" ∧ r.pmid = p.pmid ∧ r.sources = p.sources := by
    intro r hr
    rcases List.mem_map.mp hr with ⟨pub, hpub, rfl⟩
    have h2 := List.mem_filter.mp hpub
    exact ⟨pub, h2.1, by simpa using h2.2, rfl, rfl⟩
  refine ⟨?_, ?_, ?_⟩
  · intro htr
    have hpos : 0 < (finalizePositives pubs lookup).length := of_decide_eq_true htr
    obtain ⟨r, hr⟩ := List.exists_mem_of_ne_nil _ (List.length_pos.mp hpos)
    have hrd : r ∈ finalizeDetRes pubs lookup := List.mem_of_mem_filter hr
    rcases hdet r hrd with ⟨p, _, hpne, hpm, _⟩
    have hmem : r.pmid ∈
        ((finalizePositives pubs lookup).map fun r2 => r2.pmid).filter
          fun s => ! (s = "") :=
      List.mem_filter.mpr ⟨List.mem_map_of_mem _ hr, by simp [hpm, hpne]⟩
    exact List.ne_nil_of_mem hmem
  · intro pm hpm
    have hpm' : pm ∈ ((finalizePositives pubs lookup).map fun r2 => r2.pmid).filter
        (fun s => ! (s = "")) := hpm
    rcases List.mem_filter.mp hpm' with ⟨hmem, hne⟩
    rcases List.mem_map.mp hmem with ⟨r, hr, rfl⟩
    show r.pmid ∈ ((finalizeDetRes pubs lookup).map fun r2 => r2.pmid).filter
      fun s => ! (s = "")
    exact List.mem_filter.mpr ⟨List.mem_map_of_mem _ (List.mem_of_mem_filter hr), hne⟩
  · intro s
    constructor
    · intro hs
      have hs' : s ∈ (jsSetDedup
          (((finalizePositives pubs lookup).map fun r => r.sources).flatten)).filter
          (fun s2 => ! (s2 = "")) := hs
      rcases List.mem_filter.mp hs' with ⟨hmem, _⟩
      rcases List.mem_flatten.mp ((jsSetDedup_mem _ s).mp hmem) with ⟨l, hl, hsl⟩
      rcases List.mem_map.mp hl with ⟨r, hr, rfl⟩
      exact ⟨r, List.mem_of_mem_filter hr, (List.mem_filter.mp hr).2, hsl⟩
    · rintro ⟨r, hr, hres, hsrcmem⟩
      have hrpos : r ∈ finalizePositives pubs lookup := List.mem_filter.mpr ⟨hr, hres⟩
      have hsne : s ≠ "" := by
        rcases hdet r hr with ⟨p, hp, _, _, hsrcs⟩
        exact hsrc p hp s (hsrcs ▸ hsrcmem)
      show s ∈ (jsSetDedup
          (((finalizePositives pubs lookup).map fun r2 => r2.sources).flatten)).filter
          fun s2 => ! (s2 = "")
      refine List.mem_filter.mpr ⟨(jsSetDedup_mem _ s).mpr ?_, by simpa⟩
      exact List.mem_flatten.mpr ⟨r.sources, List.mem_map_of_mem _ hrpos, hsrcmem⟩

/-- C4 witness: the theorem applied to the two-publication fixture in which
both classifications are positive. -/
theorem stageFinalizeTrial_invariants_witness :
    (∀ p ∈ finalizePubsFixture, ∀ s ∈ p.sources, s ≠ "") ∧
    (((stageFinalizeTrial "NCT001" finalizePubsFixture [] finalizeLookupFixture).1.tool_results = true →
      (stageFinalizeTrial "NCT001" finalizePubsFixture [] finalizeLookupFixture).1.tool_result_pmids ≠ []) ∧
    (∀ pm ∈ (stageFinalizeTrial "NCT001" finalizePubsFixture [] finalizeLookupFixture).1.tool_result_pmids,
      pm ∈ (stageFinalizeTrial "NCT001" finalizePubsFixture [] finalizeLookupFixture).1.tool_prompted_pmids) ∧
    (∀ s, s ∈ (stageFinalizeTrial "NCT001" finalizePubsFixture [] finalizeLookupFixture).1.tool_ident_steps ↔
      ∃ r ∈ (stageFinalizeTrial "NCT001" finalizePubsFixture [] finalizeLookupFixture).2,
        r.hasResults = true ∧ s ∈ r.sources)) :=
  ⟨by decide,
    stageFinalizeTrial_invariants "NCT001" finalizePubsFixture [] finalizeLookupFixture
      (by decide)⟩

/-- C5: FINALIZE compares partial-ISO publication dates as plain strings
(lexicographically, so `"2020" < "2020-01" < "2020-01-01"`); when positives
with a pmid and a date exist, `earliest_result_publication{,_date}` are the
pmid and date of a positive whose date string is minimal in that order, and
when none exist both fields are empty. -/
theorem stageFinalizeTrial_earliest (trialId : String) (pubs : List FinPub)
    (pubErrors : List PubDiscoveryError) (lookup : String → ResultFileState) :
    (jsStrLt "2020" "2020-01" = true ∧ jsStrLt "2020-01" "2020-01-01" = true) ∧
    (finalizePositivesWithDates pubs lookup = [] →
      (stageFinalizeTrial trialId pubs pubErrors lookup).1.earliest_result_publication = "" ∧
      (stageFinalizeTrial trialId pubs pubErrors lookup).1.earliest_result_publication_date = "") ∧
    (finalizePositivesWithDates pubs lookup ≠ [] →
      ∃ r ∈ finalizePositivesWithDates pubs lookup,
        (stageFinalizeTrial trialId pubs pubErrors lookup).1.earliest_result_publication =
          r.pmid ∧
        (stageFinalizeTrial trialId pubs pubErrors lookup).1.earliest_result_publication_date =
          r.publicationDate.getD "" ∧
        ∀ q ∈ finalizePositivesWithDates pubs lookup,
          jsStrLe (r.publicationDate.getD "") (q.publicationDate.getD "") = true) := by
  have htrans : ∀ a b c : DetRes, detResDateLe a b = true → detResDateLe b c = true →
      detResDateLe a c = true := fun _ _ _ hab hbc => jsStrLe_trans hab hbc
  have htot : ∀ a b : DetRes, detResDateLe a b = true ∨ detResDateLe b a = true :=
    fun _ _ => jsStrLe_total _ _
  refine ⟨⟨by decide, by decide⟩, ?_, ?_⟩
  · intro hnil
    constructor
    · show (match jsSort detResDateLe (finalizePositivesWithDates pubs lookup) with
        | [] => ("", "")
        | e :: _ => (e.pmid, e.publicationDate.getD "")).1 = ""
      rw [hnil]
      rfl
    · show (match jsSort detResDateLe (finalizePositivesWithDates pubs lookup) with
        | [] => ("", "")
        | e :: _ => (e.pmid, e.publicationDate.getD "")).2 = ""
      rw [hnil]
      rfl
  · intro hne
    rcases hs : jsSort detResDateLe (finalizePositivesWithDates pubs lookup) with _ | ⟨x, restl⟩
    · exfalso
      have hperm := jsSort_perm detResDateLe (finalizePositivesWithDates pubs lookup)
      rw [hs] at hperm
      exact hne hperm.symm.eq_nil
    · have hmin := jsSort_head_min detResDateLe htrans htot
        (finalizePositivesWithDates pubs lookup) x restl hs
      refine ⟨x, hmin.1, ?_, ?_, fun q hq => hmin.2 q hq⟩
      · show (match jsSort detResDateLe (finalizePositivesWithDates pubs lookup) with
          | [] => ("", "")
          | e :: _ => (e.pmid, e.publicationDate.getD "")).1 = x.pmid
        rw [hs]
      · show (match jsSort detResDateLe (finalizePositivesWithDates pubs lookup) with
          | [] => ("", "")
          | e :: _ => (e.pmid, e.publicationDate.getD "")).2 = x.publicationDate.getD ""
        rw [hs]

/-- C5 witness: on the fixture the positive dated `"2020"` (PMID 222) wins
over `"2021-03"` (PMID 111). -/
theorem stageFinalizeTrial_earliest_witness :
    (finalizePositivesWithDates finalizePubsFixture finalizeLookupFixture ≠ []) ∧
    (∃ r ∈ finalizePositivesWithDates finalizePubsFixture finalizeLookupFixture,
      (stageFinalizeTrial "NCT001" finalizePubsFixture [] finalizeLookupFixture).1.earliest_result_publication =
        r.pmid ∧
      (stageFinalizeTrial "NCT001" finalizePubsFixture [] finalizeLookupFixture).1.earliest_result_publication_date =
        r.publicationDate.getD "" ∧
      ∀ q ∈ finalizePositivesWithDates finalizePubsFixture finalizeLookupFixture,
        jsStrLe (r.publicationDate.getD "") (q.publicationDate.getD "") = true) :=
  ⟨by decide,
    (stageFinalizeTrial_earliest "NCT001" finalizePubsFixture [] finalizeLookupFixture).2.2
      (by decide)⟩

/-- The strategy-name validation pass of `discoverPublications` succeeds when
every requested strategy is registered, yielding the implementation paired
with its strategy name, in order. -/
theorem discoverMapM_spec {ρ : Type} (searchFunctions : String → Option (SearchFn ρ)) :
    ∀ strategies : List String, (∀ s ∈ strategies, searchFunctions s ≠ none) →
      ∃ fns : List (SearchFn ρ × String),
        (strategies.mapM fun strategyName =>
          match searchFunctions strategyName with
          | none => Except.error ("Unknown strategy: " ++ strategyName)
          | some f => Except.ok (f, strategyName)) = .ok fns ∧
        (∀ fs ∈ fns, fs.2 ∈ strategies ∧ searchFunctions fs.2 = some fs.1) ∧
        (∀ s ∈ strategies, ∀ f, searchFunctions s = some f → (f, s) ∈ fns) := by
  intro strategies
  induction strategies with
  | nil =>
    intro _
    exact ⟨[], rfl, by simp, by simp⟩
  | cons s ss ih =>
    intro hknown
    rcases hsf : searchFunctions s with _ | f
    · exact absurd hsf (hknown s (List.mem_cons_self s ss))
    rcases ih (fun t ht => hknown t (List.mem_cons_of_mem s ht)) with ⟨fns, hmap, hmem, hcov⟩
    refine ⟨(f, s) :: fns, ?_, ?_, ?_⟩
    · rw [List.mapM_cons, hsf, hmap]
      rfl
    · intro fs hfs
      rcases List.mem_cons.mp hfs with rfl | hfs
      · exact ⟨List.mem_cons_self s ss, hsf⟩
      · rcases hmem fs hfs with ⟨h1, h2⟩
        exact ⟨List.mem_cons_of_mem s h1, h2⟩
    · intro t ht g hg
      rcases List.mem_cons.mp ht with rfl | ht
      · rw [hsf] at hg
        obtain rfl : f = g := Option.some_injective _ hg
        exact List.mem_cons_self _ _
      · exact List.mem_cons_of_mem _ (hcov t ht g hg)

/-- C9 (amended): for every registry, registration and list of registered
strategies, `discoverPublications` succeeds; a strategy that throws a
non-empty message is captured in `errors` as the record
`{results: [], fn: <the implementation's JS function name>, error: message}`
— the `fn` field holds `fn.name`, not the strategy's stable identifier — and
does not prevent any other strategy's candidates from being returned; every
returned candidate carries its strategy's stable identifier as its sole
source tag. -/
theorem discoverPublications_spec {ρ : Type}
    (searchFunctions : String → Option (SearchFn ρ)) (registration : ρ)
    (strategies : List String)
    (hknown : ∀ s ∈ strategies, searchFunctions s ≠ none) :
    ∃ pubs errs,
      discoverPublications searchFunctions registration strategies = .ok (pubs, errs) ∧
      (∀ s ∈ strategies, ∀ f, searchFunctions s = some f →
        ∀ msg, f.run registration = .error msg → msg ≠ "" →
          ({ results := [], fn := f.name, error := some msg } : SearchResultRec) ∈ errs) ∧
      (∀ s ∈ strategies, ∀ f, searchFunctions s = some f →
        ∀ res err, f.run registration = .ok (res, err) →
          ∀ p ∈ res, ({ p with sources := [s] } : Candidate) ∈ pubs) ∧
      (∀ p ∈ pubs, ∃ s ∈ strategies, p.sources = [s]) := by
  rcases discoverMapM_spec searchFunctions strategies hknown with ⟨fns, hmap, hmem, hcov⟩
  refine ⟨((fns.map fun fs => wrapStrategy fs.1 fs.2 registration).map
      fun s => s.results).flatten,
    (fns.map fun fs => wrapStrategy fs.1 fs.2 registration).filter
      fun s => jsTruthyOptStr s.error, ?_, ?_, ?_, ?_⟩
  · simp only [discoverPublications, hmap]
    rfl
  · intro s hs f hf msg hrun hne
    have hfs := hcov s hs f hf
    have hwrap : wrapStrategy f s registration =
        { results := [], fn := f.name, error := some msg } := by
      rw [wrapStrategy, hrun]
    refine List.mem_filter.mpr ⟨?_, ?_⟩
    · have h1 := List.mem_map_of_mem (fun fs => wrapStrategy fs.1 fs.2 registration) hfs
      simpa [hwrap] using h1
    · simp [jsTruthyOptStr, hne]
  · intro s hs f hf res err hrun p hp
    have hfs := hcov s hs f hf
    have hwrap : wrapStrategy f s registration =
        { results := res.map fun p2 => { p2 with sources := [s] }
          fn := f.name, error := err } := by
      rw [wrapStrategy, hrun]
    refine List.mem_flatten.mpr
      ⟨res.map fun p2 => { p2 with sources := [s] }, ?_, List.mem_map_of_mem _ hp⟩
    have h1 := List.mem_map_of_mem (fun fs => wrapStrategy fs.1 fs.2 registration) hfs
    have h2 := List.mem_map_of_mem (fun s2 : SearchResultRec => s2.results) h1
    simpa [hwrap] using h2
  · intro p hp
    rcases List.mem_flatten.mp hp with ⟨l, hl, hpl⟩
    rcases List.mem_map.mp hl with ⟨w, hw, rfl⟩
    rcases List.mem_map.mp hw with ⟨fs, hfs, rfl⟩
    rcases hmem fs hfs with ⟨hs2, _⟩
    refine ⟨fs.2, hs2, ?_⟩
    cases hrun : fs.1.run registration with
    | error msg =>
      simp [wrapStrategy, hrun] at hpl
    | ok resErr =>
      simp only [wrapStrategy, hrun] at hpl
      rcases List.mem_map.mp hpl with ⟨q, _, rfl⟩
      rfl

/-- C9 counterexample: a throwing strategy is recorded with
`fn = "searchLinkedAtRegistration"` (the implementation's JS function name),
not the stable identifier `"linked_at_registration"` the claim requires:
running the shipped `linked_at_registration` strategy on a null registration
throws, and the captured error record's `fn` differs from the strategy id. -/
theorem discoverPublications_fn_counterexample :
    discoverPublications searchFunctionsFixture (none : Option RegistrationLAR)
      ["linked_at_registration"] = .ok ([], [larErrorRecord]) ∧
    (∀ e ∈ [larErrorRecord], e.fn ≠ "linked_at_registration") :=
  ⟨rfl, by decide⟩

/-- C9 witness: the amended theorem applied to the shipped strategy on a
registration carrying two linked PMIDs — no error, both candidates returned
and tagged `linked_at_registration`. -/
theorem discoverPublications_spec_witness :
    (∀ s ∈ ["linked_at_registration"], searchFunctionsFixture s ≠ none) ∧
    (∃ pubs errs,
      discoverPublications searchFunctionsFixture (some larRegistrationFixture)
        ["linked_at_registration"] = .ok (pubs, errs) ∧
      (∀ s ∈ ["linked_at_registration"], ∀ f, searchFunctionsFixture s = some f →
        ∀ msg, f.run (some larRegistrationFixture) = .error msg → msg ≠ "" →
          ({ results := [], fn := f.name, error := some msg } : SearchResultRec) ∈ errs) ∧
      (∀ s ∈ ["linked_at_registration"], ∀ f, searchFunctionsFixture s = some f →
        ∀ res err, f.run (some larRegistrationFixture) = .ok (res, err) →
          ∀ p ∈ res, ({ p with sources := [s] } : Candidate) ∈ pubs) ∧
      (∀ p ∈ pubs, ∃ s ∈ ["linked_at_registration"], p.sources = [s])) :=
  ⟨by
      intro s hs
      simp only [List.mem_singleton] at hs
      subst hs
      simp [searchFunctionsFixture],
    discoverPublications_spec searchFunctionsFixture (some larRegistrationFixture)
      ["linked_at_registration"]
      (by
        intro s hs
        simp only [List.mem_singleton] at hs
        subst hs
        simp [searchFunctionsFixture])⟩
